import Mathlib

/-!
Verification development for the decapta repository (Go).

The development shallowly embeds the pure cores of the three source files:

- model.go : the configuration-tree merge engine over gopkg.in/yaml.v3 node
  trees (upsertCollections, mergeCollectionFields, mergeFields, mergeEditor,
  findFieldInNode, findFieldByName) together with the Collection / Field /
  File / Editor records and their yaml encoding (struct tags with omitempty).
- arb.go : the OrderedMap codec (UnmarshalJSON / MarshalJSON / Get), the
  per-language forward conversion of ARBPreProcess and the reverse
  conversion of ARBPostProcess, and getOrderedKeys.
- csv.go : reserved-name prefixing, per-row document construction and the
  identifier field of CSVPreProcess, the column-order sidecar, the reverse
  conversion of CSVPostProcess with its numeric-filename sort
  (extractFileNumber), and the field-type heuristic of CSVGenerateConfig.

File system traversal, byte-level YAML/JSON/CSV syntax and error plumbing
are not modelled; conversions are modelled at the level of the data they
read and write (documents as association lists of string fields, yaml trees
as node trees).  Serializing and re-parsing a document whose values are
plain strings is modelled as the identity, which is the behaviour of the
yaml library on such documents.  Go maps are modelled as association lists
with overwrite-on-insert; where the Go code iterates a map in unspecified
order and the result is order-sensitive, the model reproduces what the
surrounding code makes deterministic (json.MarshalIndent and sort.Strings
both emit keys in ascending byte order, which coincides with ascending
order of unicode scalar values on UTF-8 strings).
-/

namespace Decapta

/-! ### Small string helpers (models of Go strings/strconv primitives) -/

/-- Model of strings.HasPrefix. -/
def strHasPfx (s p : String) : Bool := p.data.isPrefixOf s.data

/-- Model of strings.TrimPrefix: removes p from the front of s when present. -/
def strTrimPfx (s p : String) : String :=
  if strHasPfx s p then ⟨s.data.drop p.data.length⟩ else s

/-- Model of strings.HasSuffix. -/
def strHasSfx (s p : String) : Bool := p.data.isSuffixOf s.data

/-- Byte-order comparison of Go strings, modelled on unicode scalar values;
on UTF-8 encoded strings the byte order used by sort.Strings and by
encoding/json key sorting coincides with lexicographic order of scalar
values. -/
def strLeChars : List Char → List Char → Bool
  | [], _ => true
  | _ :: _, [] => false
  | a :: as, b :: bs =>
    if a.toNat < b.toNat then true
    else if b.toNat < a.toNat then false
    else strLeChars as bs

/-- Byte-order string comparison, see strLeChars. -/
def strLe (a b : String) : Bool := strLeChars a.data b.data

/-- Model of strings.ToLower restricted to ASCII letters (the tokens compared
against it in csv.go are all ASCII). -/
def strToLower (s : String) : String :=
  ⟨s.data.map fun c => if 65 ≤ c.val ∧ c.val ≤ 90 then Char.ofNat (c.toNat + 32) else c⟩

/-! ### Association lists with Go map semantics

A Go map[string]T is modelled as a List (String × T) on which insertion
overwrites the entry of an existing key and otherwise appends; lookup
returns the first (hence only) entry of a key. -/

/-- First-match lookup in an association list. -/
def alookup {α : Type} : List (String × α) → String → Option α
  | [], _ => none
  | p :: rest, key => if p.1 = key then some p.2 else alookup rest key

/-- Insert with overwrite: models assignment m[k] = v on a Go map. -/
def mapInsert {α : Type} (m : List (String × α)) (k : String) (v : α) : List (String × α) :=
  if m.any (fun p => p.1 = k) then
    m.map fun p => if p.1 = k then (k, v) else p
  else m ++ [(k, v)]

/-! ### model.go: constants and record types -/

/-- Constant decaptaIDField from model.go. -/
def decaptaIDField : String := "slug"

/-- Constant for the reserved-name prefix string from model.go (named
decaptaPrefix in the source). -/
def decaptaPref : String := "decapta_"

/-- Function reservedFields from model.go: the fixed reserved set, containing
exactly the name "data". -/
def reservedFields (s : String) : Bool := s == "data"

/-- Editor struct from model.go. -/
structure Editor where
  Preview : Bool
deriving DecidableEq, Repr

/-- Field struct from model.go.  It is an inductive because Go's Field is
recursive through Fields.  Default (interface{} in Go) is modelled as an
optional scalar and Meta (map[string]interface{}) as a string association
list; both are nil/empty everywhere in this repository. -/
inductive Field where
  | mk (Label Name Widget : String) (Modes : List String) (Fields : List Field)
       (Collapsed : Bool) (Hint Placeholder : String) (Required : Bool)
       (Default : Option String) (Pattern PatternMsg : String)
       (Meta : List (String × String))

/-- Accessor for Field.Label. -/
def Field.Label : Field → String
  | .mk l _ _ _ _ _ _ _ _ _ _ _ _ => l

/-- Accessor for Field.Name. -/
def Field.Name : Field → String
  | .mk _ n _ _ _ _ _ _ _ _ _ _ _ => n

/-- Accessor for Field.Widget. -/
def Field.Widget : Field → String
  | .mk _ _ w _ _ _ _ _ _ _ _ _ _ => w

/-- Accessor for Field.Modes. -/
def Field.Modes : Field → List String
  | .mk _ _ _ m _ _ _ _ _ _ _ _ _ => m

/-- Accessor for Field.Fields. -/
def Field.Fields : Field → List Field
  | .mk _ _ _ _ fs _ _ _ _ _ _ _ _ => fs

/-- Accessor for Field.Collapsed. -/
def Field.Collapsed : Field → Bool
  | .mk _ _ _ _ _ c _ _ _ _ _ _ _ => c

/-- Accessor for Field.Hint. -/
def Field.Hint : Field → String
  | .mk _ _ _ _ _ _ h _ _ _ _ _ _ => h

/-- Accessor for Field.Placeholder. -/
def Field.Placeholder : Field → String
  | .mk _ _ _ _ _ _ _ p _ _ _ _ _ => p

/-- Accessor for Field.Required. -/
def Field.Required : Field → Bool
  | .mk _ _ _ _ _ _ _ _ r _ _ _ _ => r

/-- Accessor for Field.Default. -/
def Field.Default : Field → Option String
  | .mk _ _ _ _ _ _ _ _ _ d _ _ _ => d

/-- Accessor for Field.Pattern. -/
def Field.Pattern : Field → String
  | .mk _ _ _ _ _ _ _ _ _ _ p _ _ => p

/-- Accessor for Field.PatternMsg. -/
def Field.PatternMsg : Field → String
  | .mk _ _ _ _ _ _ _ _ _ _ _ p _ => p

/-- Accessor for Field.Meta. -/
def Field.Meta : Field → List (String × String)
  | .mk _ _ _ _ _ _ _ _ _ _ _ _ m => m

/-- Helper building a Field the way csv.go and arb.go do, with every
attribute they never set left at its zero value. -/
def mkField (label name widget : String) (modes : List String := [])
    (required : Bool := false) (hint : String := "") : Field :=
  .mk label name widget modes [] false hint "" required none "" "" []

/-- File struct from model.go (a file entry of a files collection). -/
structure File where
  Name : String
  Label : String
  File : String
  Fields : List Field

/-- Collection struct from model.go, fields in Go declaration order. -/
structure Collection where
  Name : String
  Label : String
  Folder : String
  Create : Bool
  Slug : String
  IdentifierField : String
  Format : String
  Extension : String
  Editor : Editor
  Files : List File
  Fields : List Field

/-! ### model.go: yaml node trees -/

/-- Kind of a yaml.v3 node. -/
inductive YKind where
  | document
  | sequence
  | mapping
  | scalar
deriving DecidableEq, Repr

/-- Shallow embedding of a gopkg.in/yaml.v3 Node: Kind, Value (meaningful for
scalars) and the flat Content list.  For mapping nodes the content alternates
key nodes and value nodes exactly as in yaml.v3.  Comments are not modelled:
no merge operation in model.go reads or writes them, so they ride along
unchanged in the Go code and are irrelevant to the structural claims. -/
inductive GNode where
  | mk (kind : YKind) (value : String) (content : List GNode)

/-- Accessor for GNode.kind. -/
def GNode.kind : GNode → YKind
  | .mk k _ _ => k

/-- Accessor for GNode.value. -/
def GNode.value : GNode → String
  | .mk _ v _ => v

/-- Accessor for GNode.content. -/
def GNode.content : GNode → List GNode
  | .mk _ _ c => c

instance : Inhabited GNode := ⟨.mk .scalar "" []⟩

mutual

/-- Boolean equality on node trees (used to build decidable equality, which
cannot be derived for a nested inductive). -/
def GNode.beq : GNode → GNode → Bool
  | .mk k1 v1 c1, .mk k2 v2 c2 => k1 == k2 && v1 == v2 && GNode.beqList c1 c2

/-- Boolean equality on lists of node trees. -/
def GNode.beqList : List GNode → List GNode → Bool
  | [], [] => true
  | a :: as, b :: bs => GNode.beq a b && GNode.beqList as bs
  | _, _ => false

end

/-- Scalar node constructor, as used throughout model.go. -/
def scalarNode (v : String) : GNode := .mk .scalar v []

/-- Key/value pair of nodes as laid out in a yaml.v3 mapping's content. -/
def kvPair (k : String) (v : GNode) : List GNode := [scalarNode k, v]

/-- Scalar encoding of a Go bool. -/
def boolScalar (b : Bool) : GNode := scalarNode (if b then "true" else "false")

/-- Core of findFieldInNode from model.go: walk the flat key/value content of
a mapping, returning the value node after the first key whose Value matches.
A trailing lone node is never returned (in Go that situation would index out
of range, and it cannot arise from a parsed mapping). -/
def findInPairs : List GNode → String → Option GNode
  | k :: v :: rest, key => if k.value = key then some v else findInPairs rest key
  | _, _ => none

/-- Function findFieldInNode from model.go. -/
def findFieldInNode (node : GNode) (key : String) : Option GNode :=
  findInPairs node.content key

/-- Core of findFieldByName from model.go, over the content of the fields
sequence node: first element whose name attribute equals fieldName. -/
def findFieldByNameIn (content : List GNode) (fieldName : String) : Option GNode :=
  content.find? fun fieldNode =>
    match findFieldInNode fieldNode "name" with
    | some nameNode => nameNode.value == fieldName
    | none => false

/-- Function findFieldByName from model.go. -/
def findFieldByName (fieldsNode : GNode) (fieldName : String) : Option GNode :=
  findFieldByNameIn fieldsNode.content fieldName

/-! ### model.go: yaml encoding of the record types

yaml.v3 Node.Encode of a struct produces the mapping node itself (the
document wrapper is stripped), with fields in declaration order and fields
tagged omitempty dropped at their zero value (for structs: all fields
zero). -/

/-- Encoding of Editor ("preview,omitempty"). -/
def encodeEditor (e : Editor) : GNode :=
  .mk .mapping "" (if e.Preview then kvPair "preview" (boolScalar true) else [])

/-- Yaml encoding of a Field (recursive through the fields attribute). -/
def encodeField : Field → GNode
  | .mk label name widget modes fields collapsed hint placeholder required dflt pat patMsg meta =>
    .mk .mapping ""
      (kvPair "label" (scalarNode label) ++
       kvPair "name" (scalarNode name) ++
       kvPair "widget" (scalarNode widget) ++
       (if modes.isEmpty then [] else
         kvPair "modes" (.mk .sequence "" (modes.map scalarNode))) ++
       (if fields.isEmpty then [] else
         kvPair "fields" (.mk .sequence "" (fields.attach.map fun f => encodeField f.1))) ++
       (if collapsed then kvPair "collapsed" (boolScalar true) else []) ++
       (if hint = "" then [] else kvPair "hint" (scalarNode hint)) ++
       (if placeholder = "" then [] else kvPair "placeholder" (scalarNode placeholder)) ++
       (if required then kvPair "required" (boolScalar true) else []) ++
       (match dflt with | some d => kvPair "default" (scalarNode d) | none => []) ++
       (if pat = "" then [] else kvPair "pattern" (scalarNode pat)) ++
       (if patMsg = "" then [] else kvPair "pattern_msg" (scalarNode patMsg)) ++
       (if meta.isEmpty then [] else
         kvPair "meta" (.mk .mapping "" (meta.flatMap fun p => kvPair p.1 (scalarNode p.2)))))
decreasing_by
  have := List.sizeOf_lt_of_mem f.2
  simp_wf
  omega

/-- Yaml encoding of a File (no omitempty tags). -/
def encodeFile (fl : File) : GNode :=
  .mk .mapping ""
    (kvPair "name" (scalarNode fl.Name) ++
     kvPair "label" (scalarNode fl.Label) ++
     kvPair "file" (scalarNode fl.File) ++
     kvPair "fields" (.mk .sequence "" (fl.Fields.map encodeField)))

/-- Yaml encoding of a Collection, following the struct tags of model.go:
name and label always, every other attribute omitted at its zero value. -/
def encodeCollection (c : Collection) : GNode :=
  .mk .mapping ""
    (kvPair "name" (scalarNode c.Name) ++
     kvPair "label" (scalarNode c.Label) ++
     (if c.Folder = "" then [] else kvPair "folder" (scalarNode c.Folder)) ++
     (if c.Create then kvPair "create" (boolScalar true) else []) ++
     (if c.Slug = "" then [] else kvPair "slug" (scalarNode c.Slug)) ++
     (if c.IdentifierField = "" then [] else
       kvPair "identifier_field" (scalarNode c.IdentifierField)) ++
     (if c.Format = "" then [] else kvPair "format" (scalarNode c.Format)) ++
     (if c.Extension = "" then [] else kvPair "extension" (scalarNode c.Extension)) ++
     (if c.Editor.Preview then kvPair "editor" (encodeEditor c.Editor) else []) ++
     (if c.Files.isEmpty then [] else
       kvPair "files" (.mk .sequence "" (c.Files.map encodeFile))) ++
     (if c.Fields.isEmpty then [] else
       kvPair "fields" (.mk .sequence "" (c.Fields.map encodeField))))

/-- Model of existingNode.Decode(&existingCollection) restricted to the one
attribute upsertCollections reads, the Folder: a scalar value under the
folder key decodes to that string, anything else (missing key, non-scalar
value, non-mapping node) leaves Folder at its zero value "". -/
def decodeFolder (n : GNode) : String :=
  match findFieldInNode n "folder" with
  | some v => if v.kind = .scalar then v.value else ""
  | none => ""

/-! ### model.go: the merge engine -/

/-- Loop of mergeEditor from model.go: walk the key/value pairs of the new
editor node and append those whose key the existing editor node lacks. -/
def mergeEditorLoop (existingContent : List GNode) : List GNode → List GNode
  | k :: v :: rest =>
    mergeEditorLoop
      (match findInPairs existingContent k.value with
       | none => existingContent ++ [k, v]
       | some _ => existingContent)
      rest
  | _ => existingContent

/-- Function mergeEditor from model.go. -/
def mergeEditor (existingEditorNode newEditorNode : GNode) : GNode :=
  .mk existingEditorNode.kind existingEditorNode.value
    (mergeEditorLoop existingEditorNode.content newEditorNode.content)

/-- Loop of mergeFields from model.go: for each incoming field node, append
it when no existing field node carries the same name attribute; existing
field nodes are never modified. -/
def mergeFieldsLoop (existingContent : List GNode) : List GNode → List GNode
  | [] => existingContent
  | nf :: rest =>
    let fieldName := ((findFieldInNode nf "name").map GNode.value).getD ""
    mergeFieldsLoop
      (match findFieldByNameIn existingContent fieldName with
       | none => existingContent ++ [nf]
       | some _ => existingContent)
      rest

/-- Function mergeFields from model.go. -/
def mergeFields (existingFieldsNode newFieldsNode : GNode) : GNode :=
  .mk existingFieldsNode.kind existingFieldsNode.value
    (mergeFieldsLoop existingFieldsNode.content newFieldsNode.content)

/-- Replace, in flat mapping content, the value node following the first key
node whose value is key (models in-place mutation of the found value). -/
def replaceValueInPairs : List GNode → String → GNode → List GNode
  | k :: v :: rest, key, nv =>
    if k.value = key then k :: nv :: rest
    else k :: v :: replaceValueInPairs rest key nv
  | l, _, _ => l

/-- Upsert loop of mergeCollectionFields from model.go, transcribed as
written: it walks the key/value pairs of loopSrc, appending missing
attributes and recursively merging the fields and editor attributes.  The
call site passes tempNode.Content[0].Content for loopSrc; tempNode is the
mapping node encoding the new collection, so Content[0] is its first KEY
scalar (value "name"), whose Content is empty - the loop therefore never
executes.  This transcription keeps the body nevertheless. -/
def upsertMissingLoop (existingContent : List GNode) : List GNode → List GNode
  | k :: v :: rest =>
    upsertMissingLoop
      (match findInPairs existingContent k.value with
       | none => existingContent ++ [k, v]
       | some existingValue =>
         if k.value = "fields" then
           replaceValueInPairs existingContent k.value (mergeFields existingValue v)
         else if k.value = "editor" then
           replaceValueInPairs existingContent k.value (mergeEditor existingValue v)
         else existingContent)
      rest
  | _ => existingContent

/-- Function mergeCollectionFields from model.go.  First the identifier
step: when the existing node lacks a decaptaIDField ("slug") key and the
incoming collection specifies an IdentifierField, a scalar pair is appended.
Then the attribute upsert loop runs over tempNode.Content[0].Content, which
is empty (see upsertMissingLoop), so it adds nothing. -/
def mergeCollectionFields (existingNode : GNode) (newColl : Collection) : GNode :=
  let tempNode := encodeCollection newColl
  let content0 :=
    match findFieldInNode existingNode decaptaIDField with
    | none =>
      if newColl.IdentifierField = "" then existingNode.content
      else existingNode.content ++
        [scalarNode decaptaIDField, scalarNode newColl.IdentifierField]
    | some _ => existingNode.content
  .mk existingNode.kind existingNode.value
    (upsertMissingLoop content0 (tempNode.content.headD default).content)

/-- One iteration of the outer loop of upsertCollections from model.go:
scan the collections sequence for the first element whose decoded Folder
equals the incoming collection's Folder; merge into it if found, otherwise
append the freshly encoded collection at the end. -/
def upsertOne (content : List GNode) (newColl : Collection) : List GNode :=
  match content with
  | [] => [encodeCollection newColl]
  | existingNode :: rest =>
    if decodeFolder existingNode = newColl.Folder then
      mergeCollectionFields existingNode newColl :: rest
    else existingNode :: upsertOne rest newColl

/-- Function upsertCollections from model.go, acting on the content of the
collections sequence node. -/
def upsertCollections (collectionsContent : List GNode) (collections : List Collection) : List GNode :=
  collections.foldl upsertOne collectionsContent

/-! ### csv.go: reserved-name prefixing -/

/-- Function addPrefixIfReserved from csv.go. -/
def addPrefixIfReserved (fieldName : String) : String :=
  if reservedFields fieldName then decaptaPref ++ fieldName else fieldName

/-- Function removePrefixIfReserved from csv.go. -/
def removePrefixIfReserved (fieldName : String) : String :=
  if strHasPfx fieldName decaptaPref ∧ reservedFields (strTrimPfx fieldName decaptaPref) then
    strTrimPfx fieldName decaptaPref
  else fieldName

/-! ### arb.go: the OrderedMap codec -/

/-- JSON/YAML values as they flow through arb.go (interface{} in Go).
Numbers are modelled as integers: the repository only moves translation
strings and metadata objects through this type and performs no arithmetic,
so the float representation of JSON numbers is immaterial to the claims. -/
inductive JVal where
  | str (s : String)
  | num (n : Int)
  | bool (b : Bool)
  | null
  | arr (elems : List JVal)
  | obj (fields : List (String × JVal))

/-- KVPair struct from arb.go. -/
structure KVPair where
  Key : String
  Value : JVal

/-- OrderedMap type from arb.go: an ordered sequence of key/value pairs. -/
def OrderedMap : Type := List KVPair

/-- Method OrderedMap.Get from arb.go: linear scan, first match wins. -/
def OrderedMap.Get : OrderedMap → String → Option JVal
  | [], _ => none
  | kv :: rest, key => if kv.Key = key then some kv.Value else OrderedMap.Get rest key

/-- Propositional form of the byte-order comparison, for use with
List.insertionSort. -/
def strLeP (a b : String) : Prop := strLe a b = true

instance : DecidableRel strLeP := fun a b => inferInstanceAs (Decidable (strLe a b = true))

/-- Ascending byte-order sort of strings: models sort.Strings (used by
getOrderedKeys in arb.go) and the ascending key order in which
encoding/json marshals a Go map. -/
def sortStrings (l : List String) : List String := List.insertionSort strLeP l

/-- Last-occurrence lookup: the value a key holds after every pair of an
OrderedMap has been written into a Go map in sequence. -/
def lastValue (om : OrderedMap) (k : String) : Option JVal :=
  OrderedMap.Get (List.reverse om) k

/-- Method OrderedMap.MarshalJSON from arb.go, at the level of the emitted
entry sequence: the method copies the pairs into an unordered Go map
(later occurrences of a key overwrite earlier ones) and then
json.MarshalIndent emits that map's entries in ascending byte order of the
keys.  The emitted JSON text therefore carries exactly these entries in
exactly this order. -/
def OrderedMap.marshalJSON (om : OrderedMap) : List KVPair :=
  (sortStrings (om.map KVPair.Key).dedup).filterMap fun k =>
    (lastValue om k).map fun v => ⟨k, v⟩

/-- Function getOrderedKeys from arb.go: collect the keys of a Go map (its
keys are unique, hence the dedup) and sort them with sort.Strings. -/
def getOrderedKeys {α : Type} (data : List (String × α)) : List String :=
  sortStrings (data.map Prod.fst).dedup

/-- Entry of a per-language content document: the value and the optional
metadata attached under the companion key, exactly the
map[string]interface{} with "value" and optional "metadata" slots that
ARBPreProcess builds and ARBPostProcess consumes. -/
def ARBEntry : Type := JVal × Option JVal

/-- Forward conversion core of ARBPreProcess (arb.go lines 59-80): walk the
parsed OrderedMap, skip metadata keys (prefix "@"), and store each
remaining key into the frontMatter map together with the metadata found
under its companion key "@key", if any.  frontMatter is a Go map, modelled
with overwrite-on-insert. -/
def buildFrontMatter (arbData : OrderedMap) : List (String × ARBEntry) :=
  arbData.foldl
    (fun fm kv =>
      if strHasPfx kv.Key "@" then fm
      else mapInsert fm kv.Key (kv.Value, OrderedMap.Get arbData ("@" ++ kv.Key)))
    []

/-- Reverse conversion core of ARBPostProcess (arb.go lines 129-146): for
each key of the content document in getOrderedKeys order, append the value
under the key and, when metadata is present, the metadata under the
companion key "@key". -/
def arbReassemble (frontMatter : List (String × ARBEntry)) : OrderedMap :=
  (getOrderedKeys frontMatter).flatMap fun key =>
    match alookup frontMatter key with
    | some (v, some md) => [⟨key, v⟩, ⟨"@" ++ key, md⟩]
    | some (v, none) => [⟨key, v⟩]
    | none => []

/-- Full reverse-after-forward composition for one language: ARBPreProcess
writes the content document (whose YAML round trip is the identity on this
model), ARBPostProcess reassembles it and emits it through
OrderedMap.MarshalJSON; the result is the entry sequence of the written
.arb file. -/
def ARBRoundTrip (arbData : OrderedMap) : List KVPair :=
  OrderedMap.marshalJSON (arbReassemble (buildFrontMatter arbData))

/-- Function extractLanguage from arb.go needs filepath.Ext; this models it:
the suffix starting at the final dot, or "" when no dot occurs. -/
def fileExt (s : String) : String :=
  if s.data.contains '.' then ⟨'.' :: (s.data.reverse.takeWhile (fun c => c ≠ '.')).reverse⟩
  else ""

/-- Model of strings.TrimSuffix. -/
def strTrimSfx (s p : String) : String :=
  if strHasSfx s p then ⟨s.data.take (s.data.length - p.data.length)⟩ else s

/-- Function extractLanguage from arb.go: the token after the last
underscore of the extension-less file name; "" when no underscore splits
the name.  filepath.Base is the identity here because the callers always
pass bare file names. -/
def extractLanguage (filename : String) : String :=
  let base := filename
  let ext := fileExt base
  let parts := (strTrimSfx base ext).splitOn "_"
  if parts.length > 1 then parts.getLastD "" else ""

/-! ### csv.go: per-row documents and the identifier field -/

/-- Function generateIdentifierField from csv.go: collect, in configured
order, the values of the configured fields that exist in the record
(missing ones are skipped), and join them with "-".  Values are the csv
cell strings, so Sprintf %v is the identity on them. -/
def generateIdentifierField (data : List (String × String)) (fields : List String) : String :=
  String.intercalate "-"
    (fields.foldl
      (fun slugParts field =>
        match alookup data field with
        | some value => slugParts ++ [value]
        | none => slugParts)
      [])

/-- Row-to-map step of CSVPreProcess (csv.go lines 92-98): for each cell of
the record whose index is covered by the header row, assign the cell to the
reserved-name-prefixed header in the data map; this pairs headers with
cells up to the shorter of the two lists. -/
def csvRowData (headers record : List String) : List (String × String) :=
  (((headers.map addPrefixIfReserved).zip record)).foldl
    (fun data p => mapInsert data p.1 p.2) []

/-- Per-row document of CSVPreProcess (csv.go lines 92-102): the row data
plus the synthesized identifier field stored under decaptaIDField,
overwriting any column of that name. -/
def csvRowDoc (headers record slugFields : List String) : List (String × String) :=
  let data := csvRowData headers record
  let idField := generateIdentifierField data slugFields
  mapInsert data decaptaIDField idField

/-- Forward conversion core of CSVPreProcess for one csv table: the column
order sidecar (headers after reserved-name prefixing) and one document per
data row, in row order.  The i-th document is persisted as (i+1).yaml. -/
def CSVPreProcessTable (headers : List String) (rows : List (List String))
    (slugFields : List String) : List String × List (List (String × String)) :=
  (headers.map addPrefixIfReserved, rows.map fun record => csvRowDoc headers record slugFields)

/-! ### csv.go: numeric file order and the reverse conversion -/

/-- ASCII digit test. -/
def isDigitChar (c : Char) : Bool := 48 ≤ c.toNat && c.toNat ≤ 57

/-- Numeric value of an ASCII digit. -/
def digitVal (c : Char) : Nat := c.toNat - 48

/-- Decimal value of a digit string, most significant first. -/
def digitsVal (cs : List Char) : Nat := cs.foldl (fun acc c => acc * 10 + digitVal c) 0

/-- Model of strconv.Atoi: optional sign, then a nonempty run of decimal
digits making up the whole string, rejected when the value leaves the
signed 64-bit range. -/
def goAtoi (s : String) : Option Int :=
  match s.data with
  | [] => none
  | c :: rest =>
    let neg : Bool := c = '-'
    let cs := if c = '+' ∨ c = '-' then rest else c :: rest
    if cs.isEmpty then none
    else if cs.all isDigitChar then
      let v : Int := if neg then -(digitsVal cs : Int) else (digitsVal cs : Int)
      if -(2 ^ 63) ≤ v ∧ v < 2 ^ 63 then some v else none
    else none

/-- Extension-less file name, as computed by
strings.TrimSuffix(filename, filepath.Ext(filename)). -/
def dropExt (s : String) : String := strTrimSfx s (fileExt s)

/-- Function extractFileNumber from csv.go: the integer value of the file
name without its extension, or -1 when it is not a valid integer. -/
def extractFileNumber (filename : String) : Int :=
  match goAtoi (dropExt filename) with
  | some num => num
  | none => -1

/-- Sort step of CSVPostProcess (csv.go lines 192-196): order the content
files of one csv source by ascending extractFileNumber of their names
(sort.Slice with that comparison; any correct sort for this key realizes
it, the comparison being total). -/
def sortByFileNumber {α : Type} (files : List (String × α)) : List (String × α) :=
  List.insertionSort (fun a b => extractFileNumber a.1 ≤ extractFileNumber b.1) files

/-- Reverse conversion core of CSVPostProcess for one csv source, taking the
content files as (name, parsed document) pairs: sort by numeric file name,
keep the .yaml files other than the sidecar, emit the header row with the
reserved-name prefixes removed, then one csv row per document, each cell
fetched under the re-prefixed sidecar header and defaulting to "". -/
def CSVPostProcessTable (csvName : String) (colOrder : List String)
    (files : List (String × List (String × String))) : List String × List (List String) :=
  let sorted := sortByFileNumber files
  let records :=
    (sorted.filter fun f =>
      strHasSfx f.1 ".yaml" && (f.1 != "." ++ csvName ++ ".yaml")).map Prod.snd
  let originalHeaders := colOrder.map removePrefixIfReserved
  (originalHeaders,
   records.map fun record =>
     colOrder.map fun header => (alookup record (addPrefixIfReserved header)).getD "")

/-- Decimal representation of a natural number (fmt.Sprintf %d). -/
def natRepr (n : Nat) : String :=
  if n = 0 then "0" else ⟨(Nat.digits 10 n).reverse.map Nat.digitChar⟩

/-- File naming loop of CSVPreProcess: the documents are written as 1.yaml,
2.yaml, ... in row order; this numbers a document list starting at i. -/
def numberFiles {α : Type} : Nat → List α → List (String × α)
  | _, [] => []
  | i, d :: ds => (natRepr i ++ ".yaml", d) :: numberFiles (i + 1) ds

/-- Reverse-after-forward composition for one csv table: CSVPreProcess
writes sidecar and numbered documents (their YAML round trip is the
identity on this model), CSVPostProcess reads them back. -/
def CSVRoundTrip (csvName : String) (headers : List String) (rows : List (List String))
    (slugFields : List String) : List String × List (List String) :=
  let pre := CSVPreProcessTable headers rows slugFields
  CSVPostProcessTable csvName pre.1 (numberFiles 1 pre.2)

/-! ### csv.go: the field-type heuristic and config generation -/

/-- Strip one optional leading sign. -/
def stripSign : List Char → List Char
  | '+' :: rest => rest
  | '-' :: rest => rest
  | cs => cs

/-- Split a character list at the first decimal exponent marker. -/
def splitAtExp (cs : List Char) : List Char × Option (List Char) :=
  match cs.span (fun c => !(c == 'e' || c == 'E')) with
  | (mant, []) => (mant, none)
  | (mant, _e :: rest) => (mant, some rest)

/-- Decimal mantissa: digits, optionally split by one dot, with at least one
digit present. -/
def floatMantissaOk (cs : List Char) : Bool :=
  let intPart := cs.takeWhile isDigitChar
  let rest := cs.dropWhile isDigitChar
  match rest with
  | [] => !intPart.isEmpty
  | '.' :: frac => (!intPart.isEmpty || !frac.isEmpty) && frac.all isDigitChar
  | _ => false

/-- Exponent part: optional sign then a nonempty digit run. -/
def floatExpOk (cs : List Char) : Bool :=
  let ds := stripSign cs
  !ds.isEmpty && ds.all isDigitChar

/-- Model of a successful strconv.ParseFloat(value, 64) as used by
detectFieldType: an optional sign followed by inf/infinity/nan (any case)
or a decimal mantissa with an optional exponent.  Hexadecimal float
literals, digit-separating underscores and the out-of-range error for
finite overflow are not modelled; no claim rests on classifying such
strings. -/
def goParseFloatOk (value : String) : Bool :=
  let cs := stripSign value.data
  let low := strToLower ⟨cs⟩
  if low == "inf" || low == "infinity" || low == "nan" then true
  else
    match splitAtExp cs with
    | (mant, none) => floatMantissaOk mant
    | (mant, some ecs) => floatMantissaOk mant && floatExpOk ecs

/-- Leap year rule of the Gregorian calendar, as in Go's time package. -/
def isLeapYear (y : Nat) : Bool := (y % 4 == 0 && y % 100 != 0) || y % 400 == 0

/-- Day count of a month, as validated by time.Parse. -/
def daysInMonth (y m : Nat) : Nat :=
  if m = 2 then (if isLeapYear y then 29 else 28)
  else if m = 4 ∨ m = 6 ∨ m = 9 ∨ m = 11 then 30
  else 31

/-- Exactly two digits, returning their value and the rest. -/
def twoDigits : List Char → Option (Nat × List Char)
  | a :: b :: rest =>
    if isDigitChar a && isDigitChar b then some (digitVal a * 10 + digitVal b, rest) else none
  | _ => none

/-- Exactly four digits, returning their value and the rest. -/
def fourDigits : List Char → Option (Nat × List Char)
  | a :: b :: c :: d :: rest =>
    if isDigitChar a && isDigitChar b && isDigitChar c && isDigitChar d then
      some (digitVal a * 1000 + digitVal b * 100 + digitVal c * 10 + digitVal d, rest)
    else none
  | _ => none

/-- One expected literal character. -/
def expectChar : List Char → Char → Option (List Char)
  | c :: rest, e => if c = e then some rest else none
  | [], _ => none

/-- Calendar validity of a year/month/day triple (time.Parse range checks). -/
def dateOk (y m d : Nat) : Bool :=
  1 ≤ m && m ≤ 12 && 1 ≤ d && d ≤ daysInMonth y m

/-- Date parse of a four-digit-year-first layout with a given separator. -/
def parseYMD (cs : List Char) (sep : Char) : Option (Nat × Nat × Nat × List Char) := do
  let (y, r1) ← fourDigits cs
  let r2 ← expectChar r1 sep
  let (m, r3) ← twoDigits r2
  let r4 ← expectChar r3 sep
  let (d, r5) ← twoDigits r4
  pure (y, m, d, r5)

/-- Date parse of a two-two-four layout with separator '/': the first two
components in the given roles, the year last. -/
def parseDDY (cs : List Char) : Option (Nat × Nat × Nat × List Char) := do
  let (a, r1) ← twoDigits cs
  let r2 ← expectChar r1 '/'
  let (b, r3) ← twoDigits r2
  let r4 ← expectChar r3 '/'
  let (y, r5) ← fourDigits r4
  pure (a, b, y, r5)

/-- Layout "2006-01-02": full-string year-month-day with dashes. -/
def dateLayoutISOOk (cs : List Char) : Bool :=
  match parseYMD cs '-' with
  | some (y, m, d, []) => dateOk y m d
  | _ => false

/-- Layout "2006/01/02": full-string year-month-day with slashes. -/
def dateLayoutYMDSlashOk (cs : List Char) : Bool :=
  match parseYMD cs '/' with
  | some (y, m, d, []) => dateOk y m d
  | _ => false

/-- Layout "02/01/2006": day/month/year. -/
def dateLayoutDMYOk (cs : List Char) : Bool :=
  match parseDDY cs with
  | some (d, m, y, []) => dateOk y m d
  | _ => false

/-- Layout "01/02/2006": month/day/year. -/
def dateLayoutMDYOk (cs : List Char) : Bool :=
  match parseDDY cs with
  | some (m, d, y, []) => dateOk y m d
  | _ => false

/-- Fractional seconds: a dot followed by at least one digit, or nothing. -/
def fracSecOk : List Char → List Char
  | '.' :: rest =>
    if (rest.takeWhile isDigitChar).isEmpty then '.' :: rest
    else rest.dropWhile isDigitChar
  | cs => cs

/-- Offset part of RFC3339: the literal Z, or a sign with hh:mm digits
(time.Parse does not range-check the offset hours). -/
def tzOffsetOk : List Char → Bool
  | ['Z'] => true
  | c :: rest =>
    if c = '+' || c = '-' then
      match twoDigits rest with
      | some (_, r1) =>
        match expectChar r1 ':' with
        | some r2 =>
          match twoDigits r2 with
          | some (mi, []) => mi ≤ 59
          | _ => false
        | none => false
      | none => false
    else false
  | [] => false

/-- Layout time.RFC3339: date, literal T, hh:mm:ss with range checks, an
optional fractional second, and a timezone offset. -/
def dateLayoutRFC3339Ok (cs : List Char) : Bool :=
  match parseYMD cs '-' with
  | some (y, mo, d, rest) =>
    dateOk y mo d &&
    (match expectChar rest 'T' with
     | some r1 =>
       (match twoDigits r1 with
        | some (h, r2) =>
          (match expectChar r2 ':' with
           | some r3 =>
             (match twoDigits r3 with
              | some (mi, r4) =>
                (match expectChar r4 ':' with
                 | some r5 =>
                   (match twoDigits r5 with
                    | some (s, r6) =>
                      h ≤ 23 && mi ≤ 59 && s ≤ 59 && tzOffsetOk (fracSecOk r6)
                    | none => false)
                 | none => false)
              | none => false)
           | none => false)
        | none => false)
     | none => false)
  | none => false

/-- Function parseDate from csv.go, as a success test: the value parses
under one of the five fixed layouts. -/
def goParseDateOk (value : String) : Bool :=
  dateLayoutRFC3339Ok value.data || dateLayoutISOOk value.data ||
  dateLayoutDMYOk value.data || dateLayoutMDYOk value.data ||
  dateLayoutYMDSlashOk value.data

/-- Function detectFieldType from csv.go: scan the sample values of one
column (rows too short to reach the column are skipped) and pick the widget
in the fixed precedence order multiline, boolean, datetime, number,
string. -/
def detectFieldType (records : List (List String)) (colIndex : Nat) : String :=
  let vals := records.filterMap fun record => record.get? colIndex
  let isMultilineText := vals.any fun value => value.data.contains '\n'
  let isFloat := vals.all goParseFloatOk
  let isBoolean := vals.all fun value =>
    let lowerValue := strToLower value
    lowerValue == "true" || lowerValue == "false" ||
    lowerValue == "yes" || lowerValue == "no"
  let isDate := vals.all goParseDateOk
  if isMultilineText then "markdown"
  else if isBoolean then "boolean"
  else if isDate then "datetime"
  else if isFloat then "number"
  else "string"

/-- Model of filepath.Join on two nonempty clean components. -/
def filepathJoin (a b : String) : String := a ++ "/" ++ b

/-- Uppercasing of ASCII letters (strings.ToUpper on the ASCII language
codes this repository handles). -/
def strToUpper (s : String) : String :=
  ⟨s.data.map fun c => if 97 ≤ c.val ∧ c.val ≤ 122 then Char.ofNat (c.toNat - 32) else c⟩

/-- Field list loop of CSVGenerateConfig (csv.go lines 340-356): one field
per header, labelled by the raw header, named by its prefixed form, with
the detected widget and raw mode for markdown. -/
def csvFieldsFor (rows : List (List String)) : Nat → List String → List Field
  | _, [] => []
  | colIndex, header :: rest =>
    let fieldType := detectFieldType rows colIndex
    mkField header (addPrefixIfReserved header) fieldType
        (if fieldType = "markdown" then ["raw"] else []) false "" ::
      csvFieldsFor rows (colIndex + 1) rest

/-- Collection built by CSVGenerateConfig (csv.go lines 330-371) for one
csv table named csvName.csv: the required Decapta ID field followed by one
field per header. -/
def CSVGenerateCollection (contentDir csvName : String) (headers : List String)
    (rows : List (List String)) : Collection :=
  { Name := "csv_" ++ csvName
    Label := "CSV Data (" ++ csvName ++ ")"
    Folder := filepathJoin contentDir csvName
    Create := true
    Slug := "\x7b\x7bslug\x7d\x7d"
    IdentifierField := decaptaIDField
    Format := "yaml"
    Extension := "yaml"
    Editor := ⟨false⟩
    Files := []
    Fields := mkField "Decapta ID" decaptaIDField "string" [] true "" :: csvFieldsFor rows 0 headers }

/-- Collection built by ARBGenerateConfig (arb.go lines 189-236) for one
language.  The per-key field list is passed in by the caller: its hint
texts come from formatPlaceholders, which iterates a Go map in unspecified
order, and no claim depends on them; every structural attribute of the
collection is fixed here as in the source (in particular Folder stays at
its zero value - the collection is file-based). -/
def ARBCollection (contentDir language : String) (fields : List Field) : Collection :=
  { Name := "translations_" ++ language
    Label := "Translations (" ++ strToUpper language ++ ")"
    Folder := ""
    Create := false
    Slug := ""
    IdentifierField := ""
    Format := ""
    Extension := ""
    Editor := ⟨false⟩
    Files := [{ Name := "translation_" ++ language
                Label := "Translation (" ++ strToUpper language ++ ")"
                File := filepathJoin contentDir (language ++ ".yaml")
                Fields := fields }]
    Fields := [] }

/-! ### Predicates about the merge engine used by the synchronization claims -/

/-- Every node of a collections sequence has key/value-paired content, as
any mapping parsed from yaml does (an odd content length would make the
Go merge code index out of range). -/
def EvenNodes (content : List GNode) : Prop :=
  ∀ n ∈ content, n.content.length % 2 = 0

/-- The merge of collection c into node n cannot change n: either c brings
no identifier field, or n already carries the identifier key. -/
def SlugSettled (c : Collection) (n : GNode) : Prop :=
  c.IdentifierField = "" ∨ findFieldInNode n decaptaIDField ≠ none

/-- First element of the collections sequence whose decoded folder equals
the given folder: the element upsertCollections merges into. -/
def firstFolderMatch (content : List GNode) (folder : String) : Option GNode :=
  content.find? fun n => decodeFolder n = folder

/-- The upsert of c into content is a no-op: c finds a match and the match
is already settled. -/
def GoodFor (content : List GNode) (c : Collection) : Prop :=
  match firstFolderMatch content c.Folder with
  | some n => SlugSettled c n
  | none => False

/-- Node n2 extends node n: same kind and value, content grown only by a
suffix (so every original attribute, in its original position, survives
byte for byte). -/
def NodeExt (n n2 : GNode) : Prop :=
  n2.kind = n.kind ∧ n2.value = n.value ∧ ∃ s, n2.content = n.content ++ s

/-- A descriptor carrying an identifier field but no slug attribute: no
caller of the merge engine in this repository builds one (csv collections
set both, arb collections set neither), but the idempotence claim
quantifies over all descriptor sets and fails on it. -/
def sluglessDescriptor : Collection :=
  { Name := "x"
    Label := "X"
    Folder := "f"
    Create := false
    Slug := ""
    IdentifierField := "id"
    Format := ""
    Extension := ""
    Editor := ⟨false⟩
    Files := []
    Fields := [] }

/-! ### Specification-side formulations used by refinement claims -/

/-- Specification-side formulation of the identifier field (C10): the
separator-joined string forms of exactly those configured fields that are
present in the record, in configured order. -/
def specIdentifier (data : List (String × String)) (fields : List String) : String :=
  String.intercalate "-"
    ((fields.filter fun f => (alookup data f).isSome).map fun f => (alookup data f).getD "")

/-- Specification-side description of what reverse-after-forward ARB
conversion retains (C7 amended): a non-metadata key keeps its value; a
metadata key "@k" survives exactly when its primary key k is itself a
retained non-metadata key; everything else is dropped. -/
def arbExpectedGet (om : OrderedMap) (q : String) : Option JVal :=
  if strHasPfx q "@" = true then
    if strHasPfx (⟨q.data.drop 1⟩ : String) "@" = true then none
    else if (OrderedMap.Get om (⟨q.data.drop 1⟩ : String)).isSome = true then
      OrderedMap.Get om q
    else none
  else OrderedMap.Get om q

/-! ## Theorems -/

theorem GNode.eta (n : GNode) : GNode.mk n.kind n.value n.content = n := by
  cases n
  rfl

/-! ### Helper lemmas on association lists -/

theorem alookup_append {α : Type} (l l2 : List (String × α)) (k : String) :
    alookup (l ++ l2) k = ((alookup l k).rec (alookup l2 k) fun v => some v) := by
  induction l with
  | nil => rfl
  | cons p rest ih =>
    by_cases h : p.1 = k
    · simp [alookup, h]
    · simpa [alookup, h] using ih

theorem alookup_append_of_some {α : Type} {l : List (String × α)} {k : String} {v : α}
    (l2 : List (String × α)) (h : alookup l k = some v) :
    alookup (l ++ l2) k = some v := by
  rw [alookup_append, h]

theorem alookup_append_of_none {α : Type} {l : List (String × α)} {k : String}
    (l2 : List (String × α)) (h : alookup l k = none) :
    alookup (l ++ l2) k = alookup l2 k := by
  rw [alookup_append, h]

theorem alookup_mapInsert_self {α : Type} :
    ∀ (m : List (String × α)) (k : String) (v : α), alookup (mapInsert m k v) k = some v := by
  intro m k v
  induction m with
  | nil => simp [mapInsert, alookup]
  | cons p rest ih =>
    by_cases h : p.1 = k
    · simp [mapInsert, alookup, h]
    · by_cases h2 : rest.any fun q => q.1 = k
      · have : mapInsert (p :: rest) k v = p :: mapInsert rest k v := by
          simp [mapInsert, h, h2]
        rw [this]
        simpa [alookup, h] using ih
      · have : mapInsert (p :: rest) k v = p :: mapInsert rest k v := by
          simp [mapInsert, h, h2]
        rw [this]
        simpa [alookup, h] using ih

theorem alookup_replaceKey {α : Type} {k j : String} (v : α) (h : j ≠ k) :
    ∀ rest : List (String × α),
      alookup (rest.map fun p => if p.1 = k then (k, v) else p) j = alookup rest j := by
  have hkj : ¬(k = j) := fun hh => h hh.symm
  intro rest
  induction rest with
  | nil => rfl
  | cons p rs ih =>
    simp only [List.map_cons, alookup]
    by_cases hp : p.1 = k
    · have hpj : ¬(p.1 = j) := by rw [hp]; exact hkj
      simp [hp, hkj, hpj, ih]
    · by_cases hj : p.1 = j
      · simp [hp, hj, h]
      · simp [hp, hj, ih]

theorem alookup_mapInsert_of_ne {α : Type} (m : List (String × α)) {k j : String} (v : α)
    (h : j ≠ k) : alookup (mapInsert m k v) j = alookup m j := by
  have hkj : ¬(k = j) := fun hh => h hh.symm
  unfold mapInsert
  by_cases hany : (m.any fun p => p.1 = k) = true
  · simp only [hany, if_true, if_pos]
    exact alookup_replaceKey v h m
  · simp only [hany, if_false, if_neg, Bool.not_eq_true]
    rw [alookup_append]
    cases hl : alookup m j with
    | none => simp [alookup, hkj]
    | some w => simp

theorem mapInsert_fresh {α : Type} (m : List (String × α)) (k : String) (v : α)
    (h : alookup m k = none) : mapInsert m k v = m ++ [(k, v)] := by
  have : m.any (fun p => p.1 = k) = false := by
    induction m with
    | nil => rfl
    | cons p rest ih =>
      by_cases hp : p.1 = k
      · simp [alookup, hp] at h
      · simp only [alookup, hp, if_neg hp] at h
        simpa [List.any_cons, hp] using ih h
  simp [mapInsert, this]

/-! ### C6: the reserved-name bijection -/

/-- Claim C6: for every field name in the reserved set,
removePrefixIfReserved (addPrefixIfReserved name) = name, and for every
field name not in the reserved set, addPrefixIfReserved is the identity. -/
theorem c6_reserved_name_bijection :
    (∀ f, reservedFields f = true →
      removePrefixIfReserved (addPrefixIfReserved f) = f) ∧
    (∀ f, reservedFields f = false → addPrefixIfReserved f = f) := by
  constructor
  · intro f hf
    have hd : f = "data" := by simpa [reservedFields] using hf
    subst hd
    decide
  · intro f hf
    simp [addPrefixIfReserved, hf]

/-- Witness for c6_reserved_name_bijection at the reserved name data and the
unreserved name title. -/
theorem c6_reserved_name_bijection_witness :
    removePrefixIfReserved (addPrefixIfReserved "data") = "data" ∧
    addPrefixIfReserved "title" = "title" :=
  ⟨c6_reserved_name_bijection.1 "data" (by decide),
   c6_reserved_name_bijection.2 "title" (by decide)⟩

/-! ### C1: serialization order of an OrderedMap -/

/-- Claim C1 evaluated at a failing input: the claim states that MarshalJSON
emits the entries of an OrderedMap in construction order; the code instead
copies the pairs into an unordered Go map and emits them through
json.MarshalIndent, which orders keys ascending by bytes.  For the
OrderedMap built in the order b, a the emitted order is a, b. -/
theorem c1_marshal_emits_sorted_not_construction_order :
    OrderedMap.marshalJSON [⟨"b", JVal.str "1"⟩, ⟨"a", JVal.str "2"⟩] =
      [⟨"a", JVal.str "2"⟩, ⟨"b", JVal.str "1"⟩] ∧
    (OrderedMap.marshalJSON [⟨"b", JVal.str "1"⟩, ⟨"a", JVal.str "2"⟩]).map KVPair.Key ≠
      ["b", "a"] :=
  ⟨rfl, by decide⟩

/-! ### C10: the synthesized identifier field -/

theorem generateIdentifierField_foldl (data : List (String × String)) :
    ∀ (fields : List String) (acc : List String),
      fields.foldl
        (fun slugParts field =>
          match alookup data field with
          | some value => slugParts ++ [value]
          | none => slugParts) acc =
      acc ++ (fields.filter fun f => (alookup data f).isSome).map
        fun f => (alookup data f).getD "" := by
  intro fields
  induction fields with
  | nil => intro acc; simp
  | cons f rest ih =>
    intro acc
    rcases h : alookup data f with _ | v
    · simp only [List.foldl_cons, h]
      rw [ih acc]
      simp [h]
    · simp only [List.foldl_cons, h]
      rw [ih (acc ++ [v])]
      simp [h, List.append_assoc]

/-- Claim C10: the synthesized identifier equals the separator-joined string
forms of exactly the configured fields present in the record, in configured
order, skipping absent ones; the empty configured list yields ""; and the
identifier is attached to the per-entity document under the fixed key
decaptaIDField, overwriting any original column of that name. -/
theorem c10_identifier_field :
    (∀ data fields, generateIdentifierField data fields = specIdentifier data fields) ∧
    (∀ data, generateIdentifierField data [] = "") ∧
    (∀ headers record slugFields,
      alookup (csvRowDoc headers record slugFields) decaptaIDField =
        some (generateIdentifierField (csvRowData headers record) slugFields)) := by
  refine ⟨?_, ?_, ?_⟩
  · intro data fields
    unfold generateIdentifierField specIdentifier
    rw [generateIdentifierField_foldl data fields []]
    simp
  · intro data
    rfl
  · intro headers record slugFields
    unfold csvRowDoc
    exact alookup_mapInsert_self _ _ _

/-! ### C9: the concrete scenario -/

/-- Claim C9: the table with header name,data and rows Alice,x and Bob,y,
with slug field list [name], produces exactly two per-entity documents with
identifier values Alice and Bob, the column order record [name,
decapta_data], and a collection whose fields are the required identifier
field plus name and decapta_data (labelled data), the data header being
restored on reverse conversion. -/
theorem c9_scenario (contentDir csvName : String) :
    CSVPreProcessTable ["name", "data"] [["Alice", "x"], ["Bob", "y"]] ["name"] =
      (["name", "decapta_data"],
       [[("name", "Alice"), ("decapta_data", "x"), ("slug", "Alice")],
        [("name", "Bob"), ("decapta_data", "y"), ("slug", "Bob")]]) ∧
    CSVGenerateCollection contentDir csvName ["name", "data"] [["Alice", "x"], ["Bob", "y"]] =
      { Name := "csv_" ++ csvName
        Label := "CSV Data (" ++ csvName ++ ")"
        Folder := filepathJoin contentDir csvName
        Create := true
        Slug := "\x7b\x7bslug\x7d\x7d"
        IdentifierField := "slug"
        Format := "yaml"
        Extension := "yaml"
        Editor := ⟨false⟩
        Files := []
        Fields := [mkField "Decapta ID" "slug" "string" [] true "",
                   mkField "name" "name" "string" [] false "",
                   mkField "data" "decapta_data" "string" [] false ""] } ∧
    removePrefixIfReserved "decapta_data" = "data" :=
  ⟨rfl, rfl, rfl⟩

/-! ### C5: upsert identity is the folder path -/

/-- Claim C5 (amended form): when some element of the collections sequence
carries the incoming collection's folder path as its folder attribute,
upsertCollections merges instead of appending, whatever the element's label
or name say - so renaming a collection's display label never creates a
duplicate entry. -/
theorem c5_upsert_matches_by_folder (content : List GNode) (c : Collection)
    (h : ∃ n ∈ content, decodeFolder n = c.Folder) :
    (upsertCollections content [c]).length = content.length := by
  show (upsertOne content c).length = content.length
  induction content with
  | nil => simp at h
  | cons n rest ih =>
    by_cases hn : decodeFolder n = c.Folder
    · simp [upsertOne, hn]
    · rcases h with ⟨m, hm, hfold⟩
      rcases List.mem_cons.mp hm with rfl | hmr
      · exact absurd hfold hn
      · simpa [upsertOne, hn] using ih ⟨m, hmr, hfold⟩

/-- Witness for c5_upsert_matches_by_folder: a tree holding one collection
for folder content/t whose label was renamed by hand; upserting the freshly
generated descriptor for the same folder appends nothing. -/
theorem c5_upsert_matches_by_folder_witness :
    (upsertCollections
      [GNode.mk .mapping ""
        (kvPair "name" (scalarNode "csv_t") ++
         kvPair "label" (scalarNode "My Renamed Table") ++
         kvPair "folder" (scalarNode "content/t"))]
      [CSVGenerateCollection "content" "t" ["a"] []]).length = 1 :=
  c5_upsert_matches_by_folder _ _ (by decide)

/-- Claim C5 as stated is false for non-tabular sources: it says the upsert
key is the folder, or equivalently the file name group for non-tabular
sources.  The two differ: ARB collections have no folder attribute, so an
incoming descriptor for language fr (file group translation_fr) matches the
existing entry of language en (file group translation_en) - both decode to
the empty folder - and is merged away instead of being appended under its
own file group. -/
theorem c5_counterexample_filegroup_not_key :
    (ARBCollection "content" "en" []).Files.map File.Name ≠
      (ARBCollection "content" "fr" []).Files.map File.Name ∧
    upsertCollections [encodeCollection (ARBCollection "content" "en" [])]
        [ARBCollection "content" "fr" []] =
      [encodeCollection (ARBCollection "content" "en" [])] :=
  ⟨by decide, rfl⟩

/-! ### Structure lemmas about the encoded collection node -/

theorem findInPairs_kv (k : String) (v : GNode) (rest : List GNode) (key : String) :
    findInPairs (kvPair k v ++ rest) key = if k = key then some v else findInPairs rest key := rfl

theorem findInPairs_skip_opt (b : Prop) [Decidable b] (k : String) (v : GNode)
    (rest : List GNode) (key : String) (hne : ¬(k = key)) :
    findInPairs ((if b then kvPair k v else []) ++ rest) key = findInPairs rest key := by
  split
  · rw [findInPairs_kv, if_neg hne]
  · rfl

theorem findInPairs_skip_opt2 (b : Prop) [Decidable b] (k : String) (v : GNode)
    (rest : List GNode) (key : String) (hne : ¬(k = key)) :
    findInPairs ((if b then [] else kvPair k v) ++ rest) key = findInPairs rest key := by
  split
  · rfl
  · rw [findInPairs_kv, if_neg hne]

theorem findInPairs_last_opt2 (b : Prop) [Decidable b] (k : String) (v : GNode)
    (key : String) (hne : ¬(k = key)) :
    findInPairs (if b then [] else kvPair k v) key = none := by
  split
  · rfl
  · show findInPairs (kvPair k v ++ []) key = none
    rw [findInPairs_kv, if_neg hne]
    rfl

theorem encode_lookup_folder (c : Collection) :
    findInPairs (encodeCollection c).content "folder" =
      if c.Folder = "" then none else some (scalarNode c.Folder) := by
  simp only [encodeCollection, GNode.content, List.append_assoc]
  rw [findInPairs_kv, if_neg (by decide : ¬(("name" : String) = "folder"))]
  rw [findInPairs_kv, if_neg (by decide : ¬(("label" : String) = "folder"))]
  by_cases hf : c.Folder = ""
  · rw [if_pos hf, if_pos hf, List.nil_append]
    rw [findInPairs_skip_opt _ _ _ _ _ (by decide : ¬(("create" : String) = "folder"))]
    rw [findInPairs_skip_opt2 _ _ _ _ _ (by decide : ¬(("slug" : String) = "folder"))]
    rw [findInPairs_skip_opt2 _ _ _ _ _ (by decide : ¬(("identifier_field" : String) = "folder"))]
    rw [findInPairs_skip_opt2 _ _ _ _ _ (by decide : ¬(("format" : String) = "folder"))]
    rw [findInPairs_skip_opt2 _ _ _ _ _ (by decide : ¬(("extension" : String) = "folder"))]
    rw [findInPairs_skip_opt _ _ _ _ _ (by decide : ¬(("editor" : String) = "folder"))]
    rw [findInPairs_skip_opt2 _ _ _ _ _ (by decide : ¬(("files" : String) = "folder"))]
    rw [findInPairs_last_opt2 _ _ _ _ (by decide : ¬(("fields" : String) = "folder"))]
  · rw [if_neg hf, if_neg hf, findInPairs_kv, if_pos rfl]

theorem encode_lookup_slug (c : Collection) :
    findInPairs (encodeCollection c).content "slug" =
      if c.Slug = "" then none else some (scalarNode c.Slug) := by
  simp only [encodeCollection, GNode.content, List.append_assoc]
  rw [findInPairs_kv, if_neg (by decide : ¬(("name" : String) = "slug"))]
  rw [findInPairs_kv, if_neg (by decide : ¬(("label" : String) = "slug"))]
  rw [findInPairs_skip_opt2 _ _ _ _ _ (by decide : ¬(("folder" : String) = "slug"))]
  rw [findInPairs_skip_opt _ _ _ _ _ (by decide : ¬(("create" : String) = "slug"))]
  by_cases hs : c.Slug = ""
  · rw [if_pos hs, if_pos hs, List.nil_append]
    rw [findInPairs_skip_opt2 _ _ _ _ _ (by decide : ¬(("identifier_field" : String) = "slug"))]
    rw [findInPairs_skip_opt2 _ _ _ _ _ (by decide : ¬(("format" : String) = "slug"))]
    rw [findInPairs_skip_opt2 _ _ _ _ _ (by decide : ¬(("extension" : String) = "slug"))]
    rw [findInPairs_skip_opt _ _ _ _ _ (by decide : ¬(("editor" : String) = "slug"))]
    rw [findInPairs_skip_opt2 _ _ _ _ _ (by decide : ¬(("files" : String) = "slug"))]
    rw [findInPairs_last_opt2 _ _ _ _ (by decide : ¬(("fields" : String) = "slug"))]
  · rw [if_neg hs, if_neg hs, findInPairs_kv, if_pos rfl]

theorem encode_content_even (c : Collection) : (encodeCollection c).content.length % 2 = 0 := by
  have seg : ∀ (b : Prop) (inst : Decidable b) (l1 l2 : List GNode),
      l1.length % 2 = 0 → l2.length % 2 = 0 →
      (List.length (if b then l1 else l2)) % 2 = 0 := by
    intro b inst l1 l2 h1 h2
    split
    · exact h1
    · exact h2
  simp only [encodeCollection, GNode.content, List.append_assoc, List.length_append]
  have h3 := seg (c.Folder = "") inferInstance [] (kvPair "folder" (scalarNode c.Folder)) (by simp [kvPair]) (by simp [kvPair])
  have h4 := seg (c.Create = true) inferInstance (kvPair "create" (boolScalar true)) [] (by simp [kvPair]) (by simp [kvPair])
  have h5 := seg (c.Slug = "") inferInstance [] (kvPair "slug" (scalarNode c.Slug)) (by simp [kvPair]) (by simp [kvPair])
  have h6 := seg (c.IdentifierField = "") inferInstance []
    (kvPair "identifier_field" (scalarNode c.IdentifierField)) (by simp [kvPair]) (by simp [kvPair])
  have h7 := seg (c.Format = "") inferInstance [] (kvPair "format" (scalarNode c.Format)) (by simp [kvPair]) (by simp [kvPair])
  have h8 := seg (c.Extension = "") inferInstance []
    (kvPair "extension" (scalarNode c.Extension)) (by simp [kvPair]) (by simp [kvPair])
  have h9 := seg (c.Editor.Preview = true) inferInstance
    (kvPair "editor" (encodeEditor c.Editor)) [] (by simp [kvPair]) (by simp [kvPair])
  have h10 := seg (c.Files.isEmpty = true) inferInstance []
    (kvPair "files" (GNode.mk .sequence "" (c.Files.map encodeFile))) (by simp [kvPair]) (by simp [kvPair])
  have h11 := seg (c.Fields.isEmpty = true) inferInstance []
    (kvPair "fields" (GNode.mk .sequence "" (c.Fields.map encodeField))) (by simp [kvPair]) (by simp [kvPair])
  simp only [kvPair, List.length_cons, List.length_nil] at h3 h4 h5 h6 h7 h8 h9 h10 h11 ⊢
  omega

/-! ### Behaviour of mergeCollectionFields -/

theorem encode_head_content (c : Collection) :
    ((encodeCollection c).content.headD default).content = [] := rfl

theorem mergeCollectionFields_eq (n : GNode) (c : Collection) :
    mergeCollectionFields n c = GNode.mk n.kind n.value
      (match findFieldInNode n decaptaIDField with
       | none =>
         if c.IdentifierField = "" then n.content
         else n.content ++ [scalarNode decaptaIDField, scalarNode c.IdentifierField]
       | some _ => n.content) := by
  cases hf : findFieldInNode n decaptaIDField with
  | none =>
    by_cases hid : c.IdentifierField = ""
    · simp [mergeCollectionFields, hf, hid, encode_head_content, upsertMissingLoop]
    · simp [mergeCollectionFields, hf, hid, encode_head_content, upsertMissingLoop]
  | some v => simp [mergeCollectionFields, hf, encode_head_content, upsertMissingLoop]

theorem merge_eq_self (n : GNode) (c : Collection) (h : SlugSettled c n) :
    mergeCollectionFields n c = n := by
  rw [mergeCollectionFields_eq]
  rcases h with h | h
  · cases hf : findFieldInNode n decaptaIDField with
    | none => simp only [h, if_pos]; exact GNode.eta n
    | some v => exact GNode.eta n
  · cases hf : findFieldInNode n decaptaIDField with
    | none => exact absurd hf h
    | some v => exact GNode.eta n

theorem findInPairs_append :
    ∀ (l : List GNode), l.length % 2 = 0 → ∀ (l2 : List GNode) (k : String),
      findInPairs (l ++ l2) k =
        ((findInPairs l k).rec (findInPairs l2 k) fun v => some v)
  | [], _, l2, k => rfl
  | [x], h, l2, k => by simp at h
  | a :: b :: rest, h, l2, k => by
    have hr : rest.length % 2 = 0 := by
      simp only [List.length_cons] at h
      omega
    by_cases hk : a.value = k
    · simp [findInPairs, hk]
    · simpa [findInPairs, hk] using findInPairs_append rest hr l2 k

theorem merge_content_even (n : GNode) (c : Collection) (h : n.content.length % 2 = 0) :
    (mergeCollectionFields n c).content.length % 2 = 0 := by
  cases n with
  | mk k v cont =>
    rw [mergeCollectionFields_eq]
    simp only [GNode.content] at h
    cases hf : findFieldInNode (GNode.mk k v cont) decaptaIDField with
    | none =>
      by_cases hid : c.IdentifierField = ""
      · simpa [GNode.content, hid] using h
      · simp [GNode.content, hid, List.length_append]
        omega
    | some v2 => simpa [GNode.content] using h

theorem findInPairs_append_of_some {l : List GNode} {k : String} {v : GNode}
    (h : l.length % 2 = 0) (l2 : List GNode) (hv : findInPairs l k = some v) :
    findInPairs (l ++ l2) k = some v := by
  rw [findInPairs_append l h l2 k, hv]

theorem findInPairs_append_of_none {l : List GNode} {k : String}
    (h : l.length % 2 = 0) (l2 : List GNode) (hv : findInPairs l k = none) :
    findInPairs (l ++ l2) k = findInPairs l2 k := by
  rw [findInPairs_append l h l2 k, hv]

theorem decodeFolder_merge (n : GNode) (c : Collection) (h : n.content.length % 2 = 0) :
    decodeFolder (mergeCollectionFields n c) = decodeFolder n := by
  cases n with
  | mk k v cont =>
    simp only [GNode.content] at h
    rw [mergeCollectionFields_eq]
    cases hf : findFieldInNode (GNode.mk k v cont) decaptaIDField with
    | none =>
      by_cases hid : c.IdentifierField = ""
      · simp [hid, GNode.kind, GNode.value, GNode.content]
      · simp only [hid, if_neg, if_false]
        unfold decodeFolder findFieldInNode
        simp only [GNode.content]
        cases hfold : findInPairs cont "folder" with
        | some w => simp [findInPairs_append_of_some h _ hfold, hfold]
        | none =>
          have h2 := findInPairs_append_of_none h
            [scalarNode decaptaIDField, scalarNode c.IdentifierField] hfold
          rw [h2]
          simp [hfold, findInPairs, scalarNode, GNode.value, decaptaIDField]
    | some w => rfl

theorem merge_slug_present_of_some (n : GNode) (c : Collection) {v : GNode}
    (hv : findFieldInNode n decaptaIDField = some v) :
    findFieldInNode (mergeCollectionFields n c) decaptaIDField = some v := by
  rw [mergeCollectionFields_eq, hv]
  exact hv

theorem merge_slug_present (n : GNode) (c : Collection)
    (h : n.content.length % 2 = 0) (hid : c.IdentifierField ≠ "") :
    findFieldInNode (mergeCollectionFields n c) decaptaIDField ≠ none := by
  cases n with
  | mk k v cont =>
    simp only [GNode.content] at h
    rw [mergeCollectionFields_eq]
    cases hv : findFieldInNode (GNode.mk k v cont) decaptaIDField with
    | some w =>
      unfold findFieldInNode at hv ⊢
      simp only [GNode.content] at hv ⊢
      rw [hv]
      simp
    | none =>
      simp only [hid, if_neg, if_false]
      unfold findFieldInNode at hv ⊢
      simp only [GNode.content] at hv ⊢
      rw [findInPairs_append_of_none h _ hv]
      simp [findInPairs, scalarNode, GNode.value]

/-! ### The upsert loop and the GoodFor invariant -/

theorem upsertOne_of_good (content : List GNode) (c : Collection)
    (h : GoodFor content c) : upsertOne content c = content := by
  induction content with
  | nil => exact absurd h (by simp [GoodFor, firstFolderMatch])
  | cons n rest ih =>
    by_cases hn : decodeFolder n = c.Folder
    · have hfind : firstFolderMatch (n :: rest) c.Folder = some n :=
        List.find?_cons_of_pos _ (by simpa using hn)
      have hs : SlugSettled c n := by
        unfold GoodFor at h
        rw [hfind] at h
        exact h
      simp [upsertOne, hn, merge_eq_self n c hs]
    · have hfind : firstFolderMatch (n :: rest) c.Folder = firstFolderMatch rest c.Folder :=
        List.find?_cons_of_neg _ (by simpa using hn)
      have hr : GoodFor rest c := by
        unfold GoodFor at h ⊢
        rwa [hfind] at h
      simp [upsertOne, hn, ih hr]

theorem evenNodes_upsertOne (content : List GNode) (c : Collection)
    (hev : EvenNodes content) : EvenNodes (upsertOne content c) := by
  induction content with
  | nil =>
    intro n hn
    simp only [upsertOne] at hn
    rcases List.mem_singleton.mp hn with rfl
    exact encode_content_even c
  | cons n rest ih =>
    by_cases hn : decodeFolder n = c.Folder
    · intro m hm
      simp only [upsertOne, hn, if_pos] at hm
      rcases List.mem_cons.mp hm with rfl | hmr
      · exact merge_content_even n c (hev n (List.mem_cons_self n rest))
      · exact hev m (List.mem_cons_of_mem n hmr)
    · intro m hm
      simp only [upsertOne, hn, if_neg, if_false] at hm
      rcases List.mem_cons.mp hm with rfl | hmr
      · exact hev m (List.mem_cons_self m rest)
      · exact ih (fun x hx => hev x (List.mem_cons_of_mem n hx)) m hmr

theorem goodFor_upsertOne (content : List GNode) (c c2 : Collection)
    (hev : EvenNodes content) (hgood : GoodFor content c) :
    GoodFor (upsertOne content c2) c := by
  induction content with
  | nil => exact absurd hgood (by simp [GoodFor, firstFolderMatch])
  | cons n rest ih =>
    have hevn : n.content.length % 2 = 0 := hev n (List.mem_cons_self n rest)
    have hevr : EvenNodes rest := fun x hx => hev x (List.mem_cons_of_mem n hx)
    by_cases hn2 : decodeFolder n = c2.Folder
    · -- upsertOne merges into the head
      have hres : upsertOne (n :: rest) c2 = mergeCollectionFields n c2 :: rest := by
        simp [upsertOne, hn2]
      rw [hres]
      by_cases hn : decodeFolder n = c.Folder
      · have hfind : firstFolderMatch (n :: rest) c.Folder = some n :=
          List.find?_cons_of_pos _ (by simpa using hn)
        have hs : SlugSettled c n := by
          unfold GoodFor at hgood
          rw [hfind] at hgood
          exact hgood
        have hm : decodeFolder (mergeCollectionFields n c2) = c.Folder := by
          rw [decodeFolder_merge n c2 hevn]
          exact hn
        have hfind2 : firstFolderMatch (mergeCollectionFields n c2 :: rest) c.Folder =
            some (mergeCollectionFields n c2) :=
          List.find?_cons_of_pos _ (by simpa using hm)
        unfold GoodFor
        rw [hfind2]
        rcases hs with hs | hs
        · exact Or.inl hs
        · right
          cases hv : findFieldInNode n decaptaIDField with
          | none => exact absurd hv hs
          | some v =>
            rw [merge_slug_present_of_some n c2 hv]
            simp
      · have hm : ¬(decodeFolder (mergeCollectionFields n c2) = c.Folder) := by
          rw [decodeFolder_merge n c2 hevn]
          exact hn
        have hfind : firstFolderMatch (n :: rest) c.Folder = firstFolderMatch rest c.Folder :=
          List.find?_cons_of_neg _ (by simpa using hn)
        have hfind2 : firstFolderMatch (mergeCollectionFields n c2 :: rest) c.Folder =
            firstFolderMatch rest c.Folder :=
          List.find?_cons_of_neg _ (by simpa using hm)
        unfold GoodFor at hgood ⊢
        rw [hfind2]
        rw [hfind] at hgood
        exact hgood
    · -- upsertOne leaves the head alone
      have hres : upsertOne (n :: rest) c2 = n :: upsertOne rest c2 := by
        simp [upsertOne, hn2]
      rw [hres]
      by_cases hn : decodeFolder n = c.Folder
      · have hfind : firstFolderMatch (n :: rest) c.Folder = some n :=
          List.find?_cons_of_pos _ (by simpa using hn)
        have hfind2 : firstFolderMatch (n :: upsertOne rest c2) c.Folder = some n :=
          List.find?_cons_of_pos _ (by simpa using hn)
        unfold GoodFor at hgood ⊢
        rw [hfind2]
        rw [hfind] at hgood
        exact hgood
      · have hfind : firstFolderMatch (n :: rest) c.Folder = firstFolderMatch rest c.Folder :=
          List.find?_cons_of_neg _ (by simpa using hn)
        have hfind2 : firstFolderMatch (n :: upsertOne rest c2) c.Folder =
            firstFolderMatch (upsertOne rest c2) c.Folder :=
          List.find?_cons_of_neg _ (by simpa using hn)
        have hgr : GoodFor rest c := by
          unfold GoodFor at hgood ⊢
          rwa [hfind] at hgood
        unfold GoodFor
        rw [hfind2]
        have := ih hevr hgr
        unfold GoodFor at this
        exact this

theorem goodFor_self_upsertOne (content : List GNode) (c : Collection)
    (hev : EvenNodes content) (hc : c.IdentifierField ≠ "" → c.Slug ≠ "") :
    GoodFor (upsertOne content c) c := by
  induction content with
  | nil =>
    have hfold : decodeFolder (encodeCollection c) = c.Folder := by
      unfold decodeFolder findFieldInNode
      rw [encode_lookup_folder]
      by_cases hf : c.Folder = ""
      · simp [hf]
      · simp [hf, scalarNode, GNode.kind, GNode.value]
    have hfind : firstFolderMatch [encodeCollection c] c.Folder = some (encodeCollection c) :=
      List.find?_cons_of_pos _ (by simpa using hfold)
    show GoodFor [encodeCollection c] c
    unfold GoodFor
    rw [hfind]
    by_cases hid : c.IdentifierField = ""
    · exact Or.inl hid
    · right
      unfold findFieldInNode
      rw [show decaptaIDField = "slug" from rfl, encode_lookup_slug]
      simp [hc hid]
  | cons n rest ih =>
    have hevn : n.content.length % 2 = 0 := hev n (List.mem_cons_self n rest)
    have hevr : EvenNodes rest := fun x hx => hev x (List.mem_cons_of_mem n hx)
    by_cases hn : decodeFolder n = c.Folder
    · have hres : upsertOne (n :: rest) c = mergeCollectionFields n c :: rest := by
        simp [upsertOne, hn]
      rw [hres]
      have hm : decodeFolder (mergeCollectionFields n c) = c.Folder := by
        rw [decodeFolder_merge n c hevn]
        exact hn
      have hfind : firstFolderMatch (mergeCollectionFields n c :: rest) c.Folder =
          some (mergeCollectionFields n c) :=
        List.find?_cons_of_pos _ (by simpa using hm)
      unfold GoodFor
      rw [hfind]
      by_cases hid : c.IdentifierField = ""
      · exact Or.inl hid
      · exact Or.inr (merge_slug_present n c hevn hid)
    · have hres : upsertOne (n :: rest) c = n :: upsertOne rest c := by
        simp [upsertOne, hn]
      rw [hres]
      have hfind : firstFolderMatch (n :: upsertOne rest c) c.Folder =
          firstFolderMatch (upsertOne rest c) c.Folder :=
        List.find?_cons_of_neg _ (by simpa using hn)
      unfold GoodFor
      rw [hfind]
      have := ih hevr
      unfold GoodFor at this
      exact this

theorem evenNodes_upsertCollections (cs : List Collection) :
    ∀ content : List GNode, EvenNodes content → EvenNodes (upsertCollections content cs) := by
  induction cs with
  | nil => exact fun content h => h
  | cons c cs2 ih =>
    intro content h
    exact ih (upsertOne content c) (evenNodes_upsertOne content c h)

theorem goodFor_upsertCollections (cs : List Collection) :
    ∀ (content : List GNode) (c : Collection), EvenNodes content → GoodFor content c →
      GoodFor (upsertCollections content cs) c := by
  induction cs with
  | nil => exact fun content c _ h => h
  | cons c2 cs2 ih =>
    intro content c hev h
    exact ih (upsertOne content c2) c (evenNodes_upsertOne content c2 hev)
      (goodFor_upsertOne content c c2 hev h)

theorem goodFor_all (cs : List Collection) :
    ∀ content : List GNode, EvenNodes content →
      (∀ c ∈ cs, c.IdentifierField ≠ "" → c.Slug ≠ "") →
      ∀ c ∈ cs, GoodFor (upsertCollections content cs) c := by
  induction cs with
  | nil => intro content _ _ c hc; exact absurd hc (List.not_mem_nil c)
  | cons c0 cs2 ih =>
    intro content hev hcs c hc
    have hstep : upsertCollections content (c0 :: cs2) =
        upsertCollections (upsertOne content c0) cs2 := rfl
    rcases List.mem_cons.mp hc with rfl | hc2
    · rw [hstep]
      exact goodFor_upsertCollections cs2 (upsertOne content c) c
        (evenNodes_upsertOne content c hev)
        (goodFor_self_upsertOne content c hev (hcs c (List.mem_cons_self c cs2)))
    · rw [hstep]
      exact ih (upsertOne content c0) (evenNodes_upsertOne content c0 hev)
        (fun x hx => hcs x (List.mem_cons_of_mem c0 hx)) c hc2

theorem upsertCollections_of_all_good (cs : List Collection) :
    ∀ P : List GNode, (∀ c ∈ cs, GoodFor P c) → upsertCollections P cs = P := by
  induction cs with
  | nil => exact fun P _ => rfl
  | cons c0 cs2 ih =>
    intro P h
    have h0 : upsertOne P c0 = P := upsertOne_of_good P c0 (h c0 (List.mem_cons_self c0 cs2))
    have hstep : upsertCollections P (c0 :: cs2) = upsertCollections (upsertOne P c0) cs2 := rfl
    rw [hstep, h0]
    exact ih P (fun c hc => h c (List.mem_cons_of_mem c0 hc))

/-! ### C3: idempotence of synchronization -/

/-- Claim C3 (amended): synchronization is idempotent for every tree whose
collection entries are well-formed mappings and every descriptor set in
which a descriptor carrying an identifier field also carries a slug
attribute - as every descriptor this repository generates does (csv
collections set both, arb collections set neither).  Structural identity of
the node trees gives byte-identical output under the deterministic
encoder. -/
theorem c3_synchronize_idempotent (content : List GNode) (cs : List Collection)
    (hev : EvenNodes content)
    (hcs : ∀ c ∈ cs, c.IdentifierField ≠ "" → c.Slug ≠ "") :
    upsertCollections (upsertCollections content cs) cs = upsertCollections content cs :=
  upsertCollections_of_all_good cs _ (goodFor_all cs content hev hcs)

/-- Witness for c3_synchronize_idempotent: synchronizing an empty collections
sequence twice with the generated descriptor of a one-column csv table. -/
theorem c3_synchronize_idempotent_witness :
    upsertCollections (upsertCollections [] [CSVGenerateCollection "content" "t" ["a"] []])
        [CSVGenerateCollection "content" "t" ["a"] []] =
      upsertCollections [] [CSVGenerateCollection "content" "t" ["a"] []] :=
  c3_synchronize_idempotent [] [CSVGenerateCollection "content" "t" ["a"] []]
    (by intro n hn; exact absurd hn (List.not_mem_nil n))
    (by
      intro c hc
      rcases List.mem_singleton.mp hc with rfl
      intro _
      decide)

/-- Claim C3 as stated is false: for a descriptor with an identifier field
but no slug attribute, the first synchronization appends the encoded node
without a top-level slug key, and the second synchronization appends the
identifier pair to it, so the second run changes the tree. -/
theorem c3_counterexample_second_run_differs :
    upsertCollections (upsertCollections [] [sluglessDescriptor]) [sluglessDescriptor] ≠
      upsertCollections [] [sluglessDescriptor] := by
  intro h
  have h2 := congrArg (fun l => ((l.headD default).content).length) h
  exact absurd h2 (by decide)

/-! ### C4: non-destructiveness of synchronization -/

theorem nodeExt_refl (n : GNode) : NodeExt n n :=
  ⟨rfl, rfl, [], (List.append_nil n.content).symm⟩

theorem nodeExt_trans {a b c : GNode} (h1 : NodeExt a b) (h2 : NodeExt b c) : NodeExt a c := by
  obtain ⟨hk1, hv1, s1, hc1⟩ := h1
  obtain ⟨hk2, hv2, s2, hc2⟩ := h2
  refine ⟨hk2.trans hk1, hv2.trans hv1, s1 ++ s2, ?_⟩
  rw [hc2, hc1, List.append_assoc]

theorem nodeExt_merge (n : GNode) (c : Collection) : NodeExt n (mergeCollectionFields n c) := by
  rw [mergeCollectionFields_eq]
  cases hf : findFieldInNode n decaptaIDField with
  | none =>
    by_cases hid : c.IdentifierField = ""
    · exact ⟨rfl, rfl, [], by simp [GNode.content, hid]⟩
    · exact ⟨rfl, rfl, [scalarNode decaptaIDField, scalarNode c.IdentifierField],
        by simp [GNode.content, hid]⟩
  | some v => exact ⟨rfl, rfl, [], by simp [GNode.content]⟩

theorem forall₂_nodeExt_trans :
    ∀ {a b c : List GNode}, List.Forall₂ NodeExt a b → List.Forall₂ NodeExt b c →
      List.Forall₂ NodeExt a c := by
  intro a b c h1 h2
  induction h1 generalizing c with
  | nil =>
    cases h2
    exact List.Forall₂.nil
  | cons hx hrest ih =>
    cases h2 with
    | cons hy hrest2 => exact List.Forall₂.cons (nodeExt_trans hx hy) (ih hrest2)

theorem forall₂_nodeExt_split {l1 l2 m : List GNode}
    (h : List.Forall₂ NodeExt (l1 ++ l2) m) :
    ∃ m1 m2, m = m1 ++ m2 ∧ List.Forall₂ NodeExt l1 m1 ∧ List.Forall₂ NodeExt l2 m2 := by
  induction l1 generalizing m with
  | nil => exact ⟨[], m, rfl, List.Forall₂.nil, h⟩
  | cons x rest ih =>
    cases h with
    | cons hx hrest =>
      obtain ⟨m1, m2, rfl, hm1, hm2⟩ := ih hrest
      exact ⟨_ :: m1, m2, rfl, List.Forall₂.cons hx hm1, hm2⟩

theorem upsertOne_ext (content : List GNode) (c : Collection) :
    ∃ pre tail, upsertOne content c = pre ++ tail ∧ List.Forall₂ NodeExt content pre := by
  induction content with
  | nil => exact ⟨[], [encodeCollection c], rfl, List.Forall₂.nil⟩
  | cons n rest ih =>
    by_cases hn : decodeFolder n = c.Folder
    · refine ⟨mergeCollectionFields n c :: rest, [], ?_, ?_⟩
      · simp [upsertOne, hn]
      · exact List.Forall₂.cons (nodeExt_merge n c)
          (List.forall₂_same.mpr fun x _ => nodeExt_refl x)
    · obtain ⟨pre, tail, he, hf⟩ := ih
      refine ⟨n :: pre, tail, ?_, List.Forall₂.cons (nodeExt_refl n) hf⟩
      simp [upsertOne, hn, he]

/-- Claim C4: synchronization is non-destructive.  Whatever the starting
collections sequence and descriptor set, the result begins with a pointwise
extension of the original sequence: every pre-existing entry is still at
its position, with the same kind, value, and its entire original content
(all attributes, hence all manually added fields, labels, widgets and the
field list subtree) as an unchanged prefix; material is only ever appended,
never removed or overwritten. -/
theorem c4_synchronize_nondestructive (content : List GNode) (cs : List Collection) :
    ∃ pre tail, upsertCollections content cs = pre ++ tail ∧
      List.Forall₂ NodeExt content pre := by
  induction cs generalizing content with
  | nil => exact ⟨content, [], (List.append_nil content).symm, List.forall₂_same.mpr fun x _ => nodeExt_refl x⟩
  | cons c cs2 ih =>
    obtain ⟨p1, t1, he1, hf1⟩ := upsertOne_ext content c
    obtain ⟨p2, t2, he2, hf2⟩ := ih (upsertOne content c)
    rw [he1] at hf2
    obtain ⟨q1, q2, rfl, hq1, hq2⟩ := forall₂_nodeExt_split hf2
    refine ⟨q1, q2 ++ t2, ?_, forall₂_nodeExt_trans hf1 hq1⟩
    have hstep : upsertCollections content (c :: cs2) =
        upsertCollections (upsertOne content c) cs2 := rfl
    rw [hstep, he2, List.append_assoc]

/-! ### C8: ordering of per-entity files at reverse-conversion time -/

/-- Claim C8 as stated is false at a concrete input: it says every file
whose name is not a valid integer gets order -1 and is therefore sorted
before all numerically named files, but strconv.Atoi also accepts negative
integers, and a file named -2.yaml (order -2) sorts before the non-numeric
foo.yaml (order -1). -/
theorem c8_counterexample_negative_number_sorts_first :
    extractFileNumber "foo.yaml" = -1 ∧
    extractFileNumber "-2.yaml" = -2 ∧
    sortByFileNumber [("foo.yaml", ([] : List (String × String))), ("-2.yaml", [])] =
      [("-2.yaml", []), ("foo.yaml", [])] :=
  ⟨by decide, by decide, by decide⟩

/-- Claim C8 (amended): the reverse conversion orders a source's content
files ascending by extractFileNumber, every file whose name is not a valid
integer receiving order -1; consequently any file at or before a
non-integer-named file in the sorted order has order at most -1 - that is,
non-integer names precede every file whose numeric value exceeds -1, while
files with numeric value at most -1 may precede them. -/
theorem c8_sort_by_numeric_filename (files : List (String × List (String × String)))
    (i j : Fin (sortByFileNumber files).length) (hij : i ≤ j)
    (hj : goAtoi (dropExt ((sortByFileNumber files).get j).1) = none) :
    extractFileNumber ((sortByFileNumber files).get i).1 ≤ -1 := by
  have hjval : extractFileNumber ((sortByFileNumber files).get j).1 = -1 := by
    unfold extractFileNumber
    rw [hj]
  haveI ht : IsTotal (String × List (String × String))
      (fun a b => extractFileNumber a.1 ≤ extractFileNumber b.1) :=
    ⟨fun a b => le_total _ _⟩
  haveI htr : IsTrans (String × List (String × String))
      (fun a b => extractFileNumber a.1 ≤ extractFileNumber b.1) :=
    ⟨fun a b c hab hbc => le_trans hab hbc⟩
  have hsorted : (sortByFileNumber files).Sorted
      (fun a b => extractFileNumber a.1 ≤ extractFileNumber b.1) := by
    unfold sortByFileNumber
    exact List.sorted_insertionSort _ files
  rcases lt_or_eq_of_le hij with hlt | heq
  · have hrel := hsorted.rel_get_of_lt hlt
    rw [hjval] at hrel
    exact hrel
  · rw [heq, hjval]

/-- Witness for c8_sort_by_numeric_filename: in the sorted pair a.yaml,
0.yaml the non-numeric file sits first with order -1. -/
theorem c8_sort_by_numeric_filename_witness :
    extractFileNumber ((sortByFileNumber
      [("a.yaml", ([] : List (String × String))), ("0.yaml", [])]).get ⟨0, by decide⟩).1 ≤ -1 :=
  c8_sort_by_numeric_filename _ ⟨0, by decide⟩ ⟨0, by decide⟩ (by decide) (by decide)

/-! ### Decimal file names: natRepr and goAtoi invert each other -/

theorem digitChar_isDigit {d : Nat} (h : d < 10) : isDigitChar (Nat.digitChar d) = true := by
  interval_cases d <;> decide

theorem digitVal_digitChar {d : Nat} (h : d < 10) : digitVal (Nat.digitChar d) = d := by
  interval_cases d <;> decide

theorem digitChar_ne_dot {d : Nat} (h : d < 10) : Nat.digitChar d ≠ '.' := by
  interval_cases d <;> decide

theorem digitChar_ne_plus {d : Nat} (h : d < 10) : Nat.digitChar d ≠ '+' := by
  interval_cases d <;> decide

theorem digitChar_ne_minus {d : Nat} (h : d < 10) : Nat.digitChar d ≠ '-' := by
  interval_cases d <;> decide

theorem foldl_digitChars :
    ∀ (ds : List Nat), (∀ d ∈ ds, d < 10) → ∀ acc : Nat,
      (ds.map Nat.digitChar).foldl (fun a c => a * 10 + digitVal c) acc =
        acc * 10 ^ ds.length + Nat.ofDigits 10 ds.reverse := by
  intro ds
  induction ds with
  | nil => intro _ acc; simp [Nat.ofDigits]
  | cons d rest ih =>
    intro hd acc
    have hd0 : d < 10 := hd d (List.mem_cons_self d rest)
    simp only [List.map_cons, List.foldl_cons, digitVal_digitChar hd0, List.reverse_cons]
    rw [ih (fun x hx => hd x (List.mem_cons_of_mem d hx)) (acc * 10 + d)]
    rw [Nat.ofDigits_append]
    simp [Nat.ofDigits, List.length_cons, pow_succ]
    ring

theorem natRepr_data {n : Nat} (h : n ≠ 0) :
    (natRepr n).data = (Nat.digits 10 n).reverse.map Nat.digitChar := by
  simp [natRepr, h]

theorem natRepr_digits {n : Nat} (h : n ≠ 0) :
    ∀ c ∈ (natRepr n).data, ∃ d, d < 10 ∧ c = Nat.digitChar d := by
  rw [natRepr_data h]
  intro c hc
  obtain ⟨d, hd, rfl⟩ := List.mem_map.mp hc
  exact ⟨d, Nat.digits_lt_base (by norm_num) (List.mem_reverse.mp hd), rfl⟩

theorem natRepr_ne_nil {n : Nat} (h : n ≠ 0) : (natRepr n).data ≠ [] := by
  rw [natRepr_data h]
  simp
  exact Nat.digits_ne_nil_iff_ne_zero.mpr h

theorem digitsVal_natRepr {n : Nat} (h : n ≠ 0) : digitsVal (natRepr n).data = n := by
  rw [natRepr_data h]
  unfold digitsVal
  rw [foldl_digitChars _ (fun d hd =>
    Nat.digits_lt_base (by norm_num) (List.mem_reverse.mp hd)) 0]
  simp [Nat.ofDigits_digits]

theorem string_data_mk (l : List Char) : (⟨l⟩ : String).data = l := rfl

theorem dropExt_append_yaml (s : String) :
    dropExt (s ++ ".yaml") = s := by
  have hdata : (s ++ ".yaml").data = s.data ++ ['.', 'y', 'a', 'm', 'l'] := by
    rw [String.data_append]
  have hext : fileExt (s ++ ".yaml") = ".yaml" := by
    unfold fileExt
    rw [hdata]
    have hcont : ((s.data ++ ['.', 'y', 'a', 'm', 'l']).contains '.') = true := by
      have hm : '.' ∈ s.data ++ ['.', 'y', 'a', 'm', 'l'] :=
        List.mem_append_right _ (by decide)
      simp
    rw [if_pos hcont]
    rw [List.reverse_append]
    have hrev : (['.', 'y', 'a', 'm', 'l'] : List Char).reverse = ['l', 'm', 'a', 'y', '.'] := by
      decide
    rw [hrev]
    show (⟨'.' :: (List.takeWhile _ ('l' :: 'm' :: 'a' :: 'y' :: '.' :: s.data.reverse)).reverse⟩ :
      String) = ".yaml"
    simp [List.takeWhile_cons]
  rw [dropExt, hext]
  unfold strTrimSfx
  have hsfx : strHasSfx (s ++ ".yaml") ".yaml" = true := by
    unfold strHasSfx
    rw [hdata]
    have : (['.', 'y', 'a', 'm', 'l'] : List Char) <:+ s.data ++ ['.', 'y', 'a', 'm', 'l'] :=
      List.suffix_append _ _
    exact List.isSuffixOf_iff_suffix.mpr this
  rw [if_pos hsfx, hdata]
  have hlen : (s.data ++ ['.', 'y', 'a', 'm', 'l']).length - (".yaml".data.length) =
      s.data.length := by
    simp
  rw [hlen]
  rw [List.take_left]

theorem goAtoi_natRepr {n : Nat} (h1 : 1 ≤ n) (h2 : (n : Int) < 2 ^ 63) :
    goAtoi (natRepr n) = some (n : Int) := by
  have hne : n ≠ 0 := by omega
  obtain ⟨c, cs, hdata⟩ : ∃ c cs, (natRepr n).data = c :: cs := by
    cases hd : (natRepr n).data with
    | nil => exact absurd hd (natRepr_ne_nil hne)
    | cons c cs => exact ⟨c, cs, rfl⟩
  obtain ⟨d, hd10, hc⟩ := natRepr_digits hne c (hdata ▸ List.mem_cons_self c cs)
  have hplus : ¬(c = '+' ∨ c = '-') := by
    rintro (h | h)
    · exact digitChar_ne_plus hd10 (hc ▸ h)
    · exact digitChar_ne_minus hd10 (hc ▸ h)
  have hneg : ¬(c = '-') := fun h => hplus (Or.inr h)
  have hall : ((c :: cs).all isDigitChar) = true := by
    rw [← hdata]
    rw [List.all_eq_true]
    intro x hx
    obtain ⟨e, he10, he⟩ := natRepr_digits hne x hx
    rw [he]
    exact digitChar_isDigit he10
  have hval : digitsVal (c :: cs) = n := by
    rw [← hdata]
    exact digitsVal_natRepr hne
  have hrange : -(2 ^ 63 : Int) ≤ (n : Int) ∧ (n : Int) < 2 ^ 63 := by
    constructor
    · have : (0 : Int) ≤ (n : Int) := Int.ofNat_nonneg n
      omega
    · exact h2
  unfold goAtoi
  rw [hdata]
  simp only [if_neg hplus]
  rw [if_neg (by simp : ¬(((c :: cs).isEmpty) = true))]
  rw [if_pos hall]
  rw [hval]
  have hnegb : ¬((decide (c = '-')) = true) := by simp [hneg]
  rw [if_neg hnegb]
  rw [if_pos hrange]

theorem extractFileNumber_numbered (j : Nat) (h1 : 1 ≤ j) (h2 : (j : Int) < 2 ^ 63) :
    extractFileNumber (natRepr j ++ ".yaml") = (j : Int) := by
  unfold extractFileNumber
  rw [dropExt_append_yaml, goAtoi_natRepr h1 h2]

theorem mem_numberFiles {α : Type} :
    ∀ (docs : List α) (i : Nat) (p : String × α), p ∈ numberFiles i docs →
      ∃ j, i ≤ j ∧ j < i + docs.length ∧ p.1 = natRepr j ++ ".yaml" := by
  intro docs
  induction docs with
  | nil => intro i p hp; exact absurd hp (List.not_mem_nil p)
  | cons d ds ih =>
    intro i p hp
    rcases List.mem_cons.mp hp with rfl | hp2
    · exact ⟨i, le_refl i, by simp, rfl⟩
    · obtain ⟨j, hj1, hj2, hj3⟩ := ih (i + 1) p hp2
      refine ⟨j, by omega, ?_, hj3⟩
      simp only [List.length_cons]
      omega

theorem sorted_numberFiles {α : Type} (docs : List α) :
    ∀ i : Nat, 1 ≤ i → i + docs.length ≤ 2 ^ 63 →
      (numberFiles i docs).Sorted
        (fun a b : String × α => extractFileNumber a.1 ≤ extractFileNumber b.1) := by
  induction docs with
  | nil => intro i _ _; exact List.sorted_nil
  | cons d ds ih =>
    intro i hi hbound
    have hbound2 : (i + 1) + ds.length ≤ 2 ^ 63 := by
      simp only [List.length_cons] at hbound
      omega
    have hilt : (i : Int) < 2 ^ 63 := by
      have : i < 2 ^ 63 := by
        simp only [List.length_cons] at hbound
        omega
      exact_mod_cast this
    rw [numberFiles]
    rw [List.sorted_cons]
    constructor
    · intro b hb
      obtain ⟨j, hj1, hj2, hj3⟩ := mem_numberFiles ds (i + 1) b hb
      have hjlt : (j : Int) < 2 ^ 63 := by
        have : j < 2 ^ 63 := by omega
        exact_mod_cast this
      rw [hj3]
      rw [extractFileNumber_numbered j (by omega) hjlt]
      rw [extractFileNumber_numbered i hi hilt]
      have : i ≤ j := by omega
      exact_mod_cast this
    · exact ih (i + 1) (by omega) hbound2

theorem numberFiles_map_snd {α : Type} :
    ∀ (docs : List α) (i : Nat), (numberFiles i docs).map Prod.snd = docs := by
  intro docs
  induction docs with
  | nil => intro i; rfl
  | cons d ds ih =>
    intro i
    simp only [numberFiles, List.map_cons, ih]

theorem numberFiles_name_props {α : Type} (docs : List α) (i : Nat) (hi : 1 ≤ i)
    (csvName : String) :
    ∀ p ∈ numberFiles i docs,
      (strHasSfx p.1 ".yaml" && (p.1 != "." ++ csvName ++ ".yaml")) = true := by
  intro p hp
  obtain ⟨j, hj1, hj2, hj3⟩ := mem_numberFiles docs i p hp
  have hjne : j ≠ 0 := by omega
  rw [Bool.and_eq_true]
  constructor
  · rw [hj3]
    unfold strHasSfx
    rw [String.data_append]
    exact List.isSuffixOf_iff_suffix.mpr (List.suffix_append _ _)
  · rw [hj3, bne_iff_ne]
    intro heq
    have hdeq : (natRepr j ++ ".yaml").data = ("." ++ csvName ++ ".yaml").data := by rw [heq]
    obtain ⟨c, cs, hcons⟩ : ∃ c cs, (natRepr j).data = c :: cs := by
      cases hd : (natRepr j).data with
      | nil => exact absurd hd (natRepr_ne_nil hjne)
      | cons c cs => exact ⟨c, cs, rfl⟩
    obtain ⟨d, hd10, hc⟩ := natRepr_digits hjne c (hcons ▸ List.mem_cons_self c cs)
    rw [String.data_append, hcons] at hdeq
    have hd2 : ("." ++ csvName ++ ".yaml").data = '.' :: (csvName.data ++ (".yaml").data) := by
      rw [String.data_append, String.data_append]
      rfl
    rw [hd2] at hdeq
    have hhead : c = '.' := by
      injection hdeq with h1 h2
    exact digitChar_ne_dot hd10 (hc ▸ hhead)

/-! ### C2: the tabular round trip -/

theorem addPrefix_idem (h : String) :
    addPrefixIfReserved (addPrefixIfReserved h) = addPrefixIfReserved h := by
  by_cases hr : reservedFields h = true
  · have hd : h = "data" := by simpa [reservedFields] using hr
    subst hd
    decide
  · have hr2 : reservedFields h = false := by
      revert hr
      cases reservedFields h <;> simp
    have e : addPrefixIfReserved h = h := by simp [addPrefixIfReserved, hr2]
    rw [e, e]

theorem foldl_mapInsert_fresh {α : Type} :
    ∀ (pairs acc : List (String × α)),
      (pairs.map Prod.fst).Nodup → (∀ p ∈ pairs, alookup acc p.1 = none) →
      pairs.foldl (fun m q => mapInsert m q.1 q.2) acc = acc ++ pairs := by
  intro pairs
  induction pairs with
  | nil => intro acc _ _; simp
  | cons q rest ih =>
    intro acc hnd hfresh
    simp only [List.foldl_cons]
    have hq : alookup acc q.1 = none := hfresh q (List.mem_cons_self q rest)
    rw [mapInsert_fresh acc q.1 q.2 hq]
    have hnd2 : (rest.map Prod.fst).Nodup := by
      simp only [List.map_cons, List.nodup_cons] at hnd
      exact hnd.2
    have hq1 : q.1 ∉ rest.map Prod.fst := by
      simp only [List.map_cons, List.nodup_cons] at hnd
      exact hnd.1
    have hfresh2 : ∀ p ∈ rest, alookup (acc ++ [(q.1, q.2)]) p.1 = none := by
      intro p hp
      rw [alookup_append_of_none _ (hfresh p (List.mem_cons_of_mem q hp))]
      have hne : ¬(q.1 = p.1) := by
        intro hh
        exact hq1 (hh ▸ List.mem_map_of_mem Prod.fst hp)
      simp [alookup, hne]
    rw [ih (acc ++ [(q.1, q.2)]) hnd2 hfresh2]
    simp

theorem map_alookup_zip :
    ∀ (ks vs : List String), ks.Nodup → ks.length = vs.length →
      ks.map (fun k => (alookup (ks.zip vs) k).getD "") = vs := by
  intro ks
  induction ks with
  | nil =>
    intro vs _ hlen
    cases vs with
    | nil => rfl
    | cons v vs2 => simp at hlen
  | cons k ks2 ih =>
    intro vs hnd hlen
    cases vs with
    | nil => simp at hlen
    | cons v vs2 =>
      simp only [List.zip_cons_cons, List.map_cons]
      have hknotin : k ∉ ks2 := (List.nodup_cons.mp hnd).1
      have hnd2 : ks2.Nodup := (List.nodup_cons.mp hnd).2
      have hlen2 : ks2.length = vs2.length := by simpa using hlen
      have hk : alookup ((k, v) :: ks2.zip vs2) k = some v := by simp [alookup]
      have htail : ks2.map (fun x => (alookup ((k, v) :: ks2.zip vs2) x).getD "") =
          ks2.map (fun x => (alookup (ks2.zip vs2) x).getD "") := by
        apply List.map_congr_left
        intro x hx
        have hne : ¬(k = x) := fun hh => hknotin (hh ▸ hx)
        simp [alookup, hne]
      rw [hk, htail, ih vs2 hnd2 hlen2]
      rfl

theorem csvRow_reconstruct (headers record slugFields : List String)
    (hlen : record.length = headers.length)
    (hnd : (headers.map addPrefixIfReserved).Nodup)
    (hslug : decaptaIDField ∉ headers.map addPrefixIfReserved) :
    (headers.map addPrefixIfReserved).map
      (fun h => (alookup (csvRowDoc headers record slugFields) (addPrefixIfReserved h)).getD "") =
      record := by
  have hidem : ∀ h ∈ headers.map addPrefixIfReserved, addPrefixIfReserved h = h := by
    intro h hh
    obtain ⟨h0, _, rfl⟩ := List.mem_map.mp hh
    exact addPrefix_idem h0
  have hdata : csvRowData headers record = (headers.map addPrefixIfReserved).zip record := by
    unfold csvRowData
    rw [foldl_mapInsert_fresh _ []
      (by
        rw [List.map_fst_zip]
        · exact hnd
        · simp [hlen])
      (fun p _ => rfl)]
    simp
  have hstep : (headers.map addPrefixIfReserved).map
      (fun h => (alookup (csvRowDoc headers record slugFields) (addPrefixIfReserved h)).getD "") =
      (headers.map addPrefixIfReserved).map
      (fun h => (alookup ((headers.map addPrefixIfReserved).zip record) h).getD "") := by
    apply List.map_congr_left
    intro h hh
    rw [hidem h hh]
    unfold csvRowDoc
    have hne : h ≠ decaptaIDField := by
      intro heq
      rw [heq] at hh
      exact hslug hh
    rw [alookup_mapInsert_of_ne _ _ hne]
    rw [hdata]
  rw [hstep]
  exact map_alookup_zip _ record hnd (by simp [hlen])

/-- Claim C2 (amended): reverse-after-forward conversion reproduces the
original header row in order and every original field value as a string,
for every configured slug field list, provided the table is benign in four
ways the unrestricted claim overlooks: rows match the header width (the csv
reader enforces this), the reserved-name-prefixed headers are pairwise
distinct, no header collides with the identifier key, and no header is
already of the prefixed-reserved shape (a literal decapta_data header is
emitted back as data).  The row count must also fit the signed 64-bit file
numbering, which any real table does. -/
theorem c2_csv_round_trip (csvName : String) (headers : List String)
    (rows : List (List String)) (slugFields : List String)
    (h1 : ∀ r ∈ rows, r.length = headers.length)
    (h2 : (headers.map addPrefixIfReserved).Nodup)
    (h3 : decaptaIDField ∉ headers.map addPrefixIfReserved)
    (h4 : ∀ h ∈ headers, removePrefixIfReserved (addPrefixIfReserved h) = h)
    (h5 : rows.length < 2 ^ 63) :
    CSVRoundTrip csvName headers rows slugFields = (headers, rows) := by
  have hdlen : (rows.map fun record => csvRowDoc headers record slugFields).length =
      rows.length := by simp
  have hsort : sortByFileNumber
      (numberFiles 1 (rows.map fun record => csvRowDoc headers record slugFields)) =
      numberFiles 1 (rows.map fun record => csvRowDoc headers record slugFields) := by
    unfold sortByFileNumber
    apply List.Sorted.insertionSort_eq
    apply sorted_numberFiles
    · exact le_refl 1
    · rw [hdlen]
      omega
  have hfilter : (numberFiles 1
        (rows.map fun record => csvRowDoc headers record slugFields)).filter
      (fun f => strHasSfx f.1 ".yaml" && (f.1 != "." ++ csvName ++ ".yaml")) =
      numberFiles 1 (rows.map fun record => csvRowDoc headers record slugFields) :=
    List.filter_eq_self.mpr
      (numberFiles_name_props _ 1 (le_refl 1) csvName)
  have hheads : (headers.map addPrefixIfReserved).map removePrefixIfReserved = headers := by
    rw [List.map_map]
    calc headers.map (removePrefixIfReserved ∘ addPrefixIfReserved)
        = headers.map id := List.map_congr_left (fun h hh => h4 h hh)
      _ = headers := List.map_id headers
  have hrows : ((numberFiles 1
        (rows.map fun record => csvRowDoc headers record slugFields)).map Prod.snd).map
      (fun record => (headers.map addPrefixIfReserved).map
        (fun header => (alookup record (addPrefixIfReserved header)).getD "")) = rows := by
    rw [numberFiles_map_snd, List.map_map]
    calc rows.map ((fun record => (headers.map addPrefixIfReserved).map
          (fun header => (alookup record (addPrefixIfReserved header)).getD "")) ∘
            (fun record => csvRowDoc headers record slugFields))
        = rows.map id :=
          List.map_congr_left (fun r hr => csvRow_reconstruct headers r slugFields (h1 r hr) h2 h3)
      _ = rows := List.map_id rows
  unfold CSVRoundTrip CSVPreProcessTable CSVPostProcessTable
  simp only [hsort, hfilter, hheads, hrows]

/-- Witness for c2_csv_round_trip at the scenario table: the header row
name,data comes back in order with the values intact. -/
theorem c2_csv_round_trip_witness :
    CSVRoundTrip "t" ["name", "data"] [["Alice", "x"], ["Bob", "y"]] ["name"] =
      (["name", "data"], [["Alice", "x"], ["Bob", "y"]]) :=
  c2_csv_round_trip "t" ["name", "data"] [["Alice", "x"], ["Bob", "y"]] ["name"]
    (by decide) (by decide) (by decide) (by decide) (by decide)

theorem natRepr_one : natRepr 1 = "1" := by
  have hd : Nat.digits 10 1 = [1] := by
    rw [Nat.digits_def' (by norm_num : (1 : ℕ) < 10) (by norm_num : 0 < 1)]
    norm_num
  unfold natRepr
  rw [if_neg (by norm_num : ¬(1 = 0)), hd]
  decide

/-- Claim C2 as stated is false at a concrete input: a table whose header is
the literal decapta_data collides with the reserved-name prefixing; the
reverse conversion emits the header data instead, so the original header
row is not reproduced. -/
theorem c2_counterexample_reserved_shaped_header :
    CSVRoundTrip "t" ["decapta_data"] [["x"]] [] = (["data"], [["x"]]) ∧
    (["data"] : List String) ≠ ["decapta_data"] := by
  constructor
  · unfold CSVRoundTrip CSVPreProcessTable
    simp only [List.map_cons, List.map_nil, numberFiles, natRepr_one]
    decide
  · decide

/-! ### C7: the ordered key/value round trip -/

theorem strLeChars_total : ∀ a b : List Char, strLeChars a b = true ∨ strLeChars b a = true
  | [], _ => Or.inl rfl
  | _ :: _, [] => Or.inr rfl
  | a :: as, b :: bs => by
    by_cases hab : a.toNat < b.toNat
    · left
      simp [strLeChars, hab]
    · by_cases hba : b.toNat < a.toNat
      · right
        simp [strLeChars, hba]
      · rcases strLeChars_total as bs with h | h
        · left
          simpa [strLeChars, hab, hba] using h
        · right
          simpa [strLeChars, hab, hba] using h

theorem strLeChars_trans :
    ∀ a b c : List Char, strLeChars a b = true → strLeChars b c = true →
      strLeChars a c = true
  | [], _, _, _, _ => rfl
  | _ :: _, [], _, h1, _ => by simp [strLeChars] at h1
  | _ :: _, _ :: _, [], _, h2 => by simp [strLeChars] at h2
  | a :: as, b :: bs, c :: cs, h1, h2 => by
    by_cases hab : a.toNat < b.toNat
    · by_cases hbc : b.toNat < c.toNat
      · simp [strLeChars, show a.toNat < c.toNat from by omega]
      · by_cases hcb : c.toNat < b.toNat
        · simp [strLeChars, hbc, hcb] at h2
        · simp [strLeChars, show a.toNat < c.toNat from by omega]
    · by_cases hba : b.toNat < a.toNat
      · simp [strLeChars, hab, hba] at h1
      · by_cases hbc : b.toNat < c.toNat
        · simp [strLeChars, show a.toNat < c.toNat from by omega]
        · by_cases hcb : c.toNat < b.toNat
          · simp [strLeChars, hbc, hcb] at h2
          · simp only [strLeChars, if_neg hab, if_neg hba] at h1
            simp only [strLeChars, if_neg hbc, if_neg hcb] at h2
            have hac : ¬(a.toNat < c.toNat) := by omega
            have hca : ¬(c.toNat < a.toNat) := by omega
            simp only [strLeChars, if_neg hac, if_neg hca]
            exact strLeChars_trans as bs cs h1 h2

instance : IsTotal String strLeP :=
  ⟨fun a b => strLeChars_total a.data b.data⟩

instance : IsTrans String strLeP :=
  ⟨fun a b c => strLeChars_trans a.data b.data c.data⟩

theorem omGet_append (l l2 : List KVPair) (k : String) :
    OrderedMap.Get (l ++ l2) k =
      ((OrderedMap.Get l k).rec (OrderedMap.Get l2 k) fun v => some v) := by
  induction l with
  | nil => rfl
  | cons kv rest ih =>
    by_cases h : kv.Key = k
    · simp [OrderedMap.Get, h]
    · simpa [OrderedMap.Get, h] using ih

theorem omGet_eq_none_iff (l : List KVPair) (k : String) :
    OrderedMap.Get l k = none ↔ ∀ kv ∈ l, kv.Key ≠ k := by
  induction l with
  | nil => simp [OrderedMap.Get]
  | cons kv rest ih =>
    by_cases h : kv.Key = k
    · simp [OrderedMap.Get, h]
    · simp [OrderedMap.Get, h, ih]

theorem lastValue_eq_get {om : OrderedMap} (hnd : (om.map KVPair.Key).Nodup) (k : String) :
    lastValue om k = OrderedMap.Get om k := by
  unfold lastValue
  induction om with
  | nil => rfl
  | cons kv rest ih =>
    have hnotin : kv.Key ∉ rest.map KVPair.Key := (List.nodup_cons.mp hnd).1
    have hnd2 : (rest.map KVPair.Key).Nodup := (List.nodup_cons.mp hnd).2
    rw [List.reverse_cons, omGet_append]
    by_cases h : kv.Key = k
    · have hrest : OrderedMap.Get rest k = none := by
        rw [omGet_eq_none_iff]
        intro kv2 hkv2 hk2
        exact hnotin (h ▸ hk2 ▸ List.mem_map_of_mem KVPair.Key hkv2)
      have hrev : OrderedMap.Get rest.reverse k = none := by
        have := ih hnd2
        rw [hrest] at this
        exact this
      rw [hrev]
      simp [OrderedMap.Get, h]
    · rw [ih hnd2]
      cases hr : OrderedMap.Get rest k with
      | some v => simp [OrderedMap.Get, h, hr]
      | none => simp [OrderedMap.Get, h, hr]

theorem omGet_keyed_filterMap (g : String → Option JVal) (q : String) :
    ∀ keys : List String, keys.Nodup →
      OrderedMap.Get (keys.filterMap fun k => (g k).map fun v => KVPair.mk k v) q =
        if q ∈ keys then g q else none := by
  intro keys
  induction keys with
  | nil => simp [OrderedMap.Get]
  | cons k ks ih =>
    intro hnd
    have hnd2 : ks.Nodup := (List.nodup_cons.mp hnd).2
    have hknotin : k ∉ ks := (List.nodup_cons.mp hnd).1
    cases hg : g k with
    | none =>
      have e : (k :: ks).filterMap (fun k2 => (g k2).map fun v2 => KVPair.mk k2 v2) =
          ks.filterMap (fun k2 => (g k2).map fun v2 => KVPair.mk k2 v2) := by
        simp [List.filterMap_cons, hg]
      rw [e, ih hnd2]
      by_cases hq : q = k
      · subst hq
        simp [hknotin, hg]
      · by_cases hqk : q ∈ ks
        · simp [hqk, List.mem_cons]
        · simp [hqk, List.mem_cons, hq]
    | some v =>
      have e : (k :: ks).filterMap (fun k2 => (g k2).map fun v2 => KVPair.mk k2 v2) =
          KVPair.mk k v :: ks.filterMap (fun k2 => (g k2).map fun v2 => KVPair.mk k2 v2) := by
        simp [List.filterMap_cons, hg]
      rw [e]
      by_cases hq : k = q
      · subst hq
        simp [OrderedMap.Get, hg]
      · have e2 : OrderedMap.Get (KVPair.mk k v :: (ks.filterMap fun k2 =>
            (g k2).map fun v2 => KVPair.mk k2 v2)) q =
            OrderedMap.Get (ks.filterMap fun k2 => (g k2).map fun v2 => KVPair.mk k2 v2) q := by
          simp [OrderedMap.Get, hq]
        rw [e2, ih hnd2]
        by_cases hqk : q ∈ ks
        · simp [hqk, List.mem_cons]
        · have hne : ¬(q = k) := fun h => hq h.symm
          simp [hqk, List.mem_cons, hne]

theorem sortStrings_nodup {l : List String} (h : l.Nodup) : (sortStrings l).Nodup :=
  (List.perm_insertionSort strLeP l).nodup_iff.mpr h

theorem mem_sortStrings {l : List String} {a : String} : a ∈ sortStrings l ↔ a ∈ l :=
  (List.perm_insertionSort strLeP l).mem_iff

theorem marshal_get (om2 : OrderedMap) (hnd2 : (om2.map KVPair.Key).Nodup) (q : String) :
    OrderedMap.Get (OrderedMap.marshalJSON om2) q = OrderedMap.Get om2 q := by
  unfold OrderedMap.marshalJSON
  have hdnd : ((om2.map KVPair.Key).dedup).Nodup := List.nodup_dedup _
  have hsnd : (sortStrings ((om2.map KVPair.Key).dedup)).Nodup := sortStrings_nodup hdnd
  have e : (sortStrings ((om2.map KVPair.Key).dedup)).filterMap
      (fun k => (lastValue om2 k).map fun v => ⟨k, v⟩) =
      (sortStrings ((om2.map KVPair.Key).dedup)).filterMap
      (fun k => (lastValue om2 k).map fun v => KVPair.mk k v) := rfl
  rw [e, omGet_keyed_filterMap (lastValue om2) q _ hsnd]
  by_cases hq : q ∈ sortStrings ((om2.map KVPair.Key).dedup)
  · rw [if_pos hq]
    exact lastValue_eq_get hnd2 q
  · rw [if_neg hq]
    have : q ∉ om2.map KVPair.Key := by
      intro hmem
      exact hq (mem_sortStrings.mpr (List.mem_dedup.mpr hmem))
    symm
    rw [omGet_eq_none_iff]
    intro kv hkv hk
    exact this (hk ▸ List.mem_map_of_mem KVPair.Key hkv)

theorem map_key_filterMap (g : String → Option JVal) :
    ∀ keys : List String,
      ((keys.filterMap fun k => (g k).map fun v => KVPair.mk k v).map KVPair.Key) =
        keys.filter fun k => (g k).isSome := by
  intro keys
  induction keys with
  | nil => rfl
  | cons k ks ih =>
    cases hg : g k with
    | none => simp [List.filterMap_cons, hg, List.filter_cons, ih]
    | some v => simp [List.filterMap_cons, hg, List.filter_cons, ih, KVPair.Key]

theorem marshal_keys_sorted (om2 : OrderedMap) :
    ((OrderedMap.marshalJSON om2).map KVPair.Key).Sorted strLeP := by
  unfold OrderedMap.marshalJSON
  have e : ((sortStrings ((om2.map KVPair.Key).dedup)).filterMap
      (fun k => (lastValue om2 k).map fun v => ⟨k, v⟩)).map KVPair.Key =
      (sortStrings ((om2.map KVPair.Key).dedup)).filter
        (fun k => (lastValue om2 k).isSome) := map_key_filterMap (lastValue om2) _
  rw [e]
  have hsorted : (sortStrings ((om2.map KVPair.Key).dedup)).Sorted strLeP :=
    List.sorted_insertionSort strLeP _
  exact List.Pairwise.filter _ hsorted

theorem string_ext {a b : String} (h : a.data = b.data) : a = b := String.ext h

theorem at_append_data (s : String) : ("@" ++ s).data = '@' :: s.data := by
  rw [String.data_append]
  rfl

theorem atPfx_append (s : String) : strHasPfx ("@" ++ s) "@" = true := by
  unfold strHasPfx
  rw [at_append_data]
  simp [List.isPrefixOf]

theorem at_inj {a b : String} (h : ("@" ++ a) = ("@" ++ b)) : a = b := by
  have hd : ('@' :: a.data) = ('@' :: b.data) := by
    rw [← at_append_data, ← at_append_data, h]
  injection hd with _ hd2
  exact string_ext hd2

theorem ne_at_of_nonat {q : String} (hq : strHasPfx q "@" = false) (s : String) :
    ¬(("@" ++ s) = q) := by
  intro h
  rw [← h] at hq
  rw [atPfx_append] at hq
  exact absurd hq (by decide)

theorem strHasPfx_at_iff (q : String) :
    strHasPfx q "@" = true ↔ ∃ rest, q.data = '@' :: rest := by
  unfold strHasPfx
  cases hq : q.data with
  | nil => simp [List.isPrefixOf]
  | cons c cs =>
    have e : (("@" : String)).data = ['@'] := rfl
    rw [e]
    simp only [List.isPrefixOf]
    constructor
    · intro h
      have hc : c = '@' := by
        have := (Bool.and_eq_true _ _).mp h
        have h2 := this.1
        exact (beq_iff_eq.mp h2).symm
      exact ⟨cs, by rw [hc]⟩
    · rintro ⟨rest, hres⟩
      injection hres with h1 h2
      simp [h1, List.isPrefixOf]

theorem bfm_aux (g : KVPair → ARBEntry) :
    ∀ (l : List KVPair) (acc : List (String × ARBEntry)),
      ((l.filter fun kv => !(strHasPfx kv.Key "@")).map KVPair.Key).Nodup →
      (∀ kv ∈ l, strHasPfx kv.Key "@" = false → alookup acc kv.Key = none) →
      l.foldl (fun fm kv => if strHasPfx kv.Key "@" then fm else mapInsert fm kv.Key (g kv)) acc =
        acc ++ l.filterMap (fun kv =>
          if strHasPfx kv.Key "@" then none else some (kv.Key, g kv)) := by
  intro l
  induction l with
  | nil => intro acc _ _; simp
  | cons kv rest ih =>
    intro acc hnd hfresh
    by_cases h : strHasPfx kv.Key "@" = true
    · have hfe : (kv :: rest).filter (fun kv2 => !(strHasPfx kv2.Key "@")) =
          rest.filter (fun kv2 => !(strHasPfx kv2.Key "@")) := by
        simp [List.filter_cons, h]
      rw [hfe] at hnd
      simp only [List.foldl_cons, if_pos h]
      rw [ih acc hnd (fun kv2 hkv2 hn2 => hfresh kv2 (List.mem_cons_of_mem kv hkv2) hn2)]
      congr 1
      simp [List.filterMap_cons, h]
    · have hb : strHasPfx kv.Key "@" = false := by
        revert h
        cases strHasPfx kv.Key "@" <;> simp
      have hfe : (kv :: rest).filter (fun kv2 => !(strHasPfx kv2.Key "@")) =
          kv :: rest.filter (fun kv2 => !(strHasPfx kv2.Key "@")) := by
        simp [List.filter_cons, hb]
      rw [hfe, List.map_cons, List.nodup_cons] at hnd
      have hfr : alookup acc kv.Key = none := hfresh kv (List.mem_cons_self kv rest) hb
      simp only [List.foldl_cons, if_neg h]
      rw [mapInsert_fresh acc kv.Key (g kv) hfr]
      rw [ih (acc ++ [(kv.Key, g kv)]) hnd.2 ?fresh2]
      case fresh2 =>
        intro kv2 hkv2 hn2
        rw [alookup_append_of_none _ (hfresh kv2 (List.mem_cons_of_mem kv hkv2) hn2)]
        have hne : ¬(kv.Key = kv2.Key) := by
          intro hh
          apply hnd.1
          rw [hh]
          exact List.mem_map_of_mem KVPair.Key (List.mem_filter.mpr ⟨hkv2, by simp [hn2]⟩)
        simp [alookup, hne]
      rw [List.append_assoc]
      congr 1
      simp [List.filterMap_cons, h]

theorem buildFrontMatter_eq (om : OrderedMap)
    (hnd : ((om.filter fun kv => !(strHasPfx kv.Key "@")).map KVPair.Key).Nodup) :
    buildFrontMatter om = om.filterMap (fun kv =>
      if strHasPfx kv.Key "@" then none
      else some (kv.Key, (kv.Value, OrderedMap.Get om ("@" ++ kv.Key)))) := by
  unfold buildFrontMatter
  rw [bfm_aux (fun kv => (kv.Value, OrderedMap.Get om ("@" ++ kv.Key))) om [] hnd
    (fun kv _ _ => rfl)]
  simp

theorem alookup_bfm_nonat (om : OrderedMap) (q : String) (hq : strHasPfx q "@" = false) :
    ∀ l : List KVPair,
      alookup (l.filterMap fun kv =>
        if strHasPfx kv.Key "@" then none
        else some (kv.Key, (kv.Value, OrderedMap.Get om ("@" ++ kv.Key)))) q =
      (OrderedMap.Get l q).map fun v => (v, OrderedMap.Get om ("@" ++ q)) := by
  intro l
  induction l with
  | nil => rfl
  | cons kv rest ih =>
    by_cases h : strHasPfx kv.Key "@" = true
    · have hne : ¬(kv.Key = q) := by
        intro hh
        rw [hh, hq] at h
        exact absurd h (by decide)
      have e : (kv :: rest).filterMap (fun kv2 =>
          if strHasPfx kv2.Key "@" then none
          else some (kv2.Key, (kv2.Value, OrderedMap.Get om ("@" ++ kv2.Key)))) =
          rest.filterMap (fun kv2 =>
          if strHasPfx kv2.Key "@" then none
          else some (kv2.Key, (kv2.Value, OrderedMap.Get om ("@" ++ kv2.Key)))) := by
        simp [List.filterMap_cons, h]
      rw [e, ih]
      have e2 : OrderedMap.Get (kv :: rest) q = OrderedMap.Get rest q := by
        simp [OrderedMap.Get, hne]
      rw [e2]
    · have e : (kv :: rest).filterMap (fun kv2 =>
          if strHasPfx kv2.Key "@" then none
          else some (kv2.Key, (kv2.Value, OrderedMap.Get om ("@" ++ kv2.Key)))) =
          (kv.Key, (kv.Value, OrderedMap.Get om ("@" ++ kv.Key))) ::
          rest.filterMap (fun kv2 =>
          if strHasPfx kv2.Key "@" then none
          else some (kv2.Key, (kv2.Value, OrderedMap.Get om ("@" ++ kv2.Key)))) := by
        simp [List.filterMap_cons, h]
      rw [e]
      by_cases hkq : kv.Key = q
      · simp [alookup, hkq, OrderedMap.Get]
      · simp only [alookup, hkq, if_neg, if_false, ih]
        simp [OrderedMap.Get, hkq]

theorem alookup_bfm_at (om : OrderedMap) (q : String) (hq : strHasPfx q "@" = true) :
    ∀ l : List KVPair,
      alookup (l.filterMap fun kv =>
        if strHasPfx kv.Key "@" then none
        else some (kv.Key, (kv.Value, OrderedMap.Get om ("@" ++ kv.Key)))) q = none := by
  intro l
  induction l with
  | nil => rfl
  | cons kv rest ih =>
    by_cases h : strHasPfx kv.Key "@" = true
    · have e : (kv :: rest).filterMap (fun kv2 =>
          if strHasPfx kv2.Key "@" then none
          else some (kv2.Key, (kv2.Value, OrderedMap.Get om ("@" ++ kv2.Key)))) =
          rest.filterMap (fun kv2 =>
          if strHasPfx kv2.Key "@" then none
          else some (kv2.Key, (kv2.Value, OrderedMap.Get om ("@" ++ kv2.Key)))) := by
        simp [List.filterMap_cons, h]
      rw [e, ih]
    · have hne : ¬(kv.Key = q) := by
        intro hh
        rw [hh, hq] at h
        exact h rfl
      have e : (kv :: rest).filterMap (fun kv2 =>
          if strHasPfx kv2.Key "@" then none
          else some (kv2.Key, (kv2.Value, OrderedMap.Get om ("@" ++ kv2.Key)))) =
          (kv.Key, (kv.Value, OrderedMap.Get om ("@" ++ kv.Key))) ::
          rest.filterMap (fun kv2 =>
          if strHasPfx kv2.Key "@" then none
          else some (kv2.Key, (kv2.Value, OrderedMap.Get om ("@" ++ kv2.Key)))) := by
        simp [List.filterMap_cons, h]
      rw [e]
      simp [alookup, hne, ih]

theorem omGet_append_of_some {l : List KVPair} {k : String} {v : JVal} (l2 : List KVPair)
    (h : OrderedMap.Get l k = some v) : OrderedMap.Get (l ++ l2) k = some v := by
  rw [omGet_append, h]

theorem omGet_append_of_none {l : List KVPair} {k : String} (l2 : List KVPair)
    (h : OrderedMap.Get l k = none) : OrderedMap.Get (l ++ l2) k = OrderedMap.Get l2 k := by
  rw [omGet_append, h]

theorem omGet_expand_keys_nonat (fm : List (String × ARBEntry)) (q : String)
    (hq : strHasPfx q "@" = false) :
    ∀ keys : List String,
      OrderedMap.Get (keys.flatMap fun key =>
        match alookup fm key with
        | some (v, some md) => [⟨key, v⟩, ⟨"@" ++ key, md⟩]
        | some (v, none) => [⟨key, v⟩]
        | none => []) q =
      if q ∈ keys then (alookup fm q).map Prod.fst else none := by
  intro keys
  induction keys with
  | nil => simp [OrderedMap.Get]
  | cons k ks ih =>
    rw [List.flatMap_cons]
    by_cases hkq : k = q
    · subst hkq
      cases hfm : alookup fm k with
      | none =>
        show OrderedMap.Get (([] : List KVPair) ++ _) k = _
        rw [List.nil_append, ih]
        simp [hfm, List.mem_cons]
      | some e =>
        obtain ⟨v, md⟩ := e
        cases md with
        | none =>
          show OrderedMap.Get ([(⟨k, v⟩ : KVPair)] ++ _) k = _
          rw [@omGet_append_of_some _ _ v _ (by simp [OrderedMap.Get])]
          simp [hfm, List.mem_cons]
        | some m =>
          show OrderedMap.Get
            ([(⟨k, v⟩ : KVPair), ⟨"@" ++ k, m⟩] ++ _) k = _
          rw [@omGet_append_of_some _ _ v _ (by simp [OrderedMap.Get])]
          simp [hfm, List.mem_cons]
    · have hGet : OrderedMap.Get ((match alookup fm k with
          | some (v, some md) => [(⟨k, v⟩ : KVPair), ⟨"@" ++ k, md⟩]
          | some (v, none) => [(⟨k, v⟩ : KVPair)]
          | none => []) : List KVPair) q = none := by
        cases hfm : alookup fm k with
        | none => rfl
        | some e =>
          obtain ⟨v, md⟩ := e
          cases md with
          | none => simp [OrderedMap.Get, hkq]
          | some m => simp [OrderedMap.Get, hkq, ne_at_of_nonat hq k]
      rw [omGet_append_of_none _ hGet, ih]
      by_cases hq2 : q ∈ ks
      · rw [if_pos hq2, if_pos (List.mem_cons_of_mem k hq2)]
      · rw [if_neg hq2, if_neg ?side]
        case side =>
          intro hh
          rcases List.mem_cons.mp hh with hh2 | hh2
          · exact hkq hh2.symm
          · exact hq2 hh2

theorem omGet_expand_keys_at (fm : List (String × ARBEntry)) (p : String) :
    ∀ keys : List String, (∀ k ∈ keys, strHasPfx k "@" = false) →
      OrderedMap.Get (keys.flatMap fun key =>
        match alookup fm key with
        | some (v, some md) => [⟨key, v⟩, ⟨"@" ++ key, md⟩]
        | some (v, none) => [⟨key, v⟩]
        | none => []) ("@" ++ p) =
      if p ∈ keys then (alookup fm p).bind (fun e => e.2) else none := by
  intro keys
  induction keys with
  | nil => intro _; simp [OrderedMap.Get]
  | cons k ks ih =>
    intro hkeys
    have hknonat : strHasPfx k "@" = false := hkeys k (List.mem_cons_self k ks)
    have hksrest : ∀ k2 ∈ ks, strHasPfx k2 "@" = false :=
      fun k2 h2 => hkeys k2 (List.mem_cons_of_mem k h2)
    have hself : ¬(k = "@" ++ k) := by
      intro hh
      rw [hh] at hknonat
      rw [atPfx_append] at hknonat
      exact absurd hknonat (by decide)
    rw [List.flatMap_cons]
    by_cases hkp : k = p
    · subst hkp
      cases hfm : alookup fm k with
      | none =>
        show OrderedMap.Get (([] : List KVPair) ++ _) _ = _
        rw [List.nil_append, ih hksrest]
        simp [hfm]
      | some e =>
        obtain ⟨v, md⟩ := e
        cases md with
        | none =>
          show OrderedMap.Get ([(⟨k, v⟩ : KVPair)] ++ _) ("@" ++ k) = _
          rw [omGet_append_of_none _ (by simp [OrderedMap.Get, hself])]
          rw [ih hksrest]
          simp [hfm]
        | some m =>
          show OrderedMap.Get ([(⟨k, v⟩ : KVPair), ⟨"@" ++ k, m⟩] ++ _) ("@" ++ k) = _
          rw [@omGet_append_of_some _ _ m _ (by simp [OrderedMap.Get, hself])]
          simp [hfm, List.mem_cons]
    · have hGet : OrderedMap.Get ((match alookup fm k with
          | some (v, some md) => [(⟨k, v⟩ : KVPair), ⟨"@" ++ k, md⟩]
          | some (v, none) => [(⟨k, v⟩ : KVPair)]
          | none => []) : List KVPair) ("@" ++ p) = none := by
        have h1 : ¬(k = "@" ++ p) := by
          intro hh
          rw [hh] at hknonat
          rw [atPfx_append] at hknonat
          exact absurd hknonat (by decide)
        have h2 : ¬(("@" ++ k) = ("@" ++ p)) := fun hh => hkp (at_inj hh)
        cases hfm : alookup fm k with
        | none => rfl
        | some e =>
          obtain ⟨v, md⟩ := e
          cases md with
          | none => simp [OrderedMap.Get, h1]
          | some m => simp [OrderedMap.Get, h1, h2]
      rw [omGet_append_of_none _ hGet, ih hksrest]
      by_cases hq2 : p ∈ ks
      · rw [if_pos hq2, if_pos (List.mem_cons_of_mem k hq2)]
      · rw [if_neg hq2, if_neg ?side2]
        case side2 =>
          intro hh
          rcases List.mem_cons.mp hh with hh2 | hh2
          · exact hkp hh2.symm
          · exact hq2 hh2

theorem mem_expand_key (fm : List (String × ARBEntry)) (key x : String) :
    x ∈ (((match alookup fm key with
      | some (v, some md) => [(⟨key, v⟩ : KVPair), ⟨"@" ++ key, md⟩]
      | some (v, none) => [(⟨key, v⟩ : KVPair)]
      | none => []) : List KVPair).map KVPair.Key) → x = key ∨ x = "@" ++ key := by
  cases hfm : alookup fm key with
  | none => intro h; exact absurd h (by simp)
  | some e =>
    obtain ⟨v, md⟩ := e
    cases md with
    | none =>
      intro h
      simp only [List.map_cons, List.map_nil, List.mem_singleton] at h
      exact Or.inl h
    | some m =>
      intro h
      simp only [List.map_cons, List.map_nil, List.mem_cons, List.mem_singleton,
        List.not_mem_nil, or_false] at h
      exact h

theorem expand_keys_nodup (fm : List (String × ARBEntry)) :
    ∀ keys : List String, keys.Nodup → (∀ k ∈ keys, strHasPfx k "@" = false) →
      ((keys.flatMap fun key =>
        match alookup fm key with
        | some (v, some md) => [⟨key, v⟩, ⟨"@" ++ key, md⟩]
        | some (v, none) => [⟨key, v⟩]
        | none => []).map KVPair.Key).Nodup := by
  intro keys
  induction keys with
  | nil => intro _ _; simp
  | cons k ks ih =>
    intro hnd hkeys
    have hknotin : k ∉ ks := (List.nodup_cons.mp hnd).1
    have hnd2 : ks.Nodup := (List.nodup_cons.mp hnd).2
    have hknonat : strHasPfx k "@" = false := hkeys k (List.mem_cons_self k ks)
    have hksrest : ∀ k2 ∈ ks, strHasPfx k2 "@" = false :=
      fun k2 h2 => hkeys k2 (List.mem_cons_of_mem k h2)
    have hself : ¬(k = "@" ++ k) := by
      intro hh
      rw [hh] at hknonat
      rw [atPfx_append] at hknonat
      exact absurd hknonat (by decide)
    rw [List.flatMap_cons, List.map_append]
    apply List.Nodup.append
    · cases hfm : alookup fm k with
      | none => simp
      | some e =>
        obtain ⟨v, md⟩ := e
        cases md with
        | none => simp
        | some m => simp [hself]
    · exact ih hnd2 hksrest
    · intro x hx1 hx2
      obtain ⟨kv2, hkv2, hx2e⟩ := List.mem_map.mp hx2
      obtain ⟨k2, hk2mem, hk2e⟩ := List.mem_flatMap.mp hkv2
      have hx2cases : x = k2 ∨ x = "@" ++ k2 := by
        apply mem_expand_key fm k2 x
        rw [← hx2e]
        exact List.mem_map_of_mem KVPair.Key hk2e
      have hx1cases : x = k ∨ x = "@" ++ k := mem_expand_key fm k x hx1
      have hk2nonat : strHasPfx k2 "@" = false := hksrest k2 hk2mem
      rcases hx1cases with h1 | h1 <;> rcases hx2cases with h2 | h2
      · exact hknotin (by rw [h1] at h2; rw [h2]; exact hk2mem)
      · rw [h1] at h2
        rw [h2] at hknonat
        rw [atPfx_append] at hknonat
        exact absurd hknonat (by decide)
      · rw [h2] at h1
        rw [h1] at hk2nonat
        rw [atPfx_append] at hk2nonat
        exact absurd hk2nonat (by decide)
      · rw [h1] at h2
        exact hknotin (by rw [at_inj h2]; exact hk2mem)

theorem bfm_map_fst (om : OrderedMap) :
    ∀ l : List KVPair,
      ((l.filterMap fun kv => if strHasPfx kv.Key "@" then none
        else some (kv.Key, (kv.Value, OrderedMap.Get om ("@" ++ kv.Key)))).map Prod.fst) =
      (l.filter fun kv => !(strHasPfx kv.Key "@")).map KVPair.Key := by
  intro l
  induction l with
  | nil => rfl
  | cons kv rest ih =>
    by_cases h : strHasPfx kv.Key "@" = true
    · simp [List.filterMap_cons, List.filter_cons, h, ih]
    · simp [List.filterMap_cons, List.filter_cons, h, ih]

theorem alookup_isSome_iff {α : Type} (l : List (String × α)) (q : String) :
    (alookup l q).isSome = true ↔ q ∈ l.map Prod.fst := by
  induction l with
  | nil => simp [alookup]
  | cons p rest ih =>
    by_cases h : p.1 = q
    · simp [alookup, h]
    · simp only [alookup, if_neg h, List.map_cons, List.mem_cons]
      rw [ih]
      constructor
      · exact Or.inr
      · rintro (hh | hh)
        · exact absurd hh.symm h
        · exact hh

/-- Claim C7 (amended): reverse-after-forward ARB conversion retains exactly
the non-metadata keys with their values, and a metadata key exactly when its
primary key is present (standalone metadata keys are dropped); the emitted
key order is ascending byte order - produced by getOrderedKeys and the JSON
marshalling of an unordered map - and depends neither on the source file's
order nor on the content document's stored order. -/
theorem c7_arb_round_trip (om : OrderedMap) (hnd : (om.map KVPair.Key).Nodup) :
    (∀ q : String, OrderedMap.Get (ARBRoundTrip om) q = arbExpectedGet om q) ∧
    ((ARBRoundTrip om).map KVPair.Key).Sorted strLeP := by
  have hndf : ((om.filter fun kv => !(strHasPfx kv.Key "@")).map KVPair.Key).Nodup := by
    have hsub : ((om.filter fun kv => !(strHasPfx kv.Key "@")).map KVPair.Key).Sublist
        (om.map KVPair.Key) := List.Sublist.map _ (List.filter_sublist _)
    exact hnd.sublist hsub
  have hfst : (buildFrontMatter om).map Prod.fst =
      (om.filter fun kv => !(strHasPfx kv.Key "@")).map KVPair.Key := by
    rw [buildFrontMatter_eq om hndf]
    exact bfm_map_fst om om
  have hfmnodup : ((buildFrontMatter om).map Prod.fst).Nodup := by
    rw [hfst]
    exact hndf
  have hfmnonat : ∀ k ∈ (buildFrontMatter om).map Prod.fst, strHasPfx k "@" = false := by
    rw [hfst]
    intro k hk
    obtain ⟨kv, hkv, hke⟩ := List.mem_map.mp hk
    have hf := (List.mem_filter.mp hkv).2
    rw [← hke]
    revert hf
    cases strHasPfx kv.Key "@" <;> simp
  have hkeysnodup : (getOrderedKeys (buildFrontMatter om)).Nodup :=
    sortStrings_nodup (List.nodup_dedup _)
  have hkeysnonat : ∀ k ∈ getOrderedKeys (buildFrontMatter om), strHasPfx k "@" = false := by
    intro k hk
    exact hfmnonat k (List.mem_dedup.mp (mem_sortStrings.mp hk))
  have hkeysmem : ∀ q : String,
      q ∈ getOrderedKeys (buildFrontMatter om) ↔
        (alookup (buildFrontMatter om) q).isSome = true := by
    intro q
    unfold getOrderedKeys
    rw [mem_sortStrings, List.mem_dedup, alookup_isSome_iff]
  have hLnodup : ((arbReassemble (buildFrontMatter om)).map KVPair.Key).Nodup := by
    unfold arbReassemble
    exact expand_keys_nodup _ _ hkeysnodup hkeysnonat
  constructor
  · intro q
    unfold ARBRoundTrip
    rw [marshal_get _ hLnodup q]
    cases hq : strHasPfx q "@" with
    | false =>
      have hexp : arbExpectedGet om q = OrderedMap.Get om q := by
        unfold arbExpectedGet
        rw [if_neg (by simp [hq])]
      rw [hexp]
      unfold arbReassemble
      rw [omGet_expand_keys_nonat (buildFrontMatter om) q hq _]
      by_cases hqmem : q ∈ getOrderedKeys (buildFrontMatter om)
      · rw [if_pos hqmem]
        have halookup : alookup (buildFrontMatter om) q =
            (OrderedMap.Get om q).map (fun v => (v, OrderedMap.Get om ("@" ++ q))) := by
          rw [buildFrontMatter_eq om hndf]
          exact alookup_bfm_nonat om q hq om
        rw [halookup]
        cases hget : OrderedMap.Get om q with
        | none => simp
        | some v => simp
      · rw [if_neg hqmem]
        have hnone : (alookup (buildFrontMatter om) q).isSome = false := by
          cases his : (alookup (buildFrontMatter om) q).isSome with
          | false => rfl
          | true => exact absurd ((hkeysmem q).mpr his) hqmem
        have halookup : alookup (buildFrontMatter om) q =
            (OrderedMap.Get om q).map (fun v => (v, OrderedMap.Get om ("@" ++ q))) := by
          rw [buildFrontMatter_eq om hndf]
          exact alookup_bfm_nonat om q hq om
        rw [halookup] at hnone
        cases hget : OrderedMap.Get om q with
        | none => rfl
        | some v =>
          rw [hget] at hnone
          simp at hnone
    | true =>
      obtain ⟨rest, hqd⟩ := (strHasPfx_at_iff q).mp hq
      have hqp : q = "@" ++ (⟨rest⟩ : String) := by
        apply string_ext
        rw [at_append_data]
        exact hqd
      have hdrop : (⟨("@" ++ (⟨rest⟩ : String)).data.drop 1⟩ : String) = (⟨rest⟩ : String) := by
        apply string_ext
        rw [at_append_data]
        simp
      have hexp : arbExpectedGet om ("@" ++ (⟨rest⟩ : String)) =
          (if strHasPfx (⟨rest⟩ : String) "@" = true then none
           else if (OrderedMap.Get om (⟨rest⟩ : String)).isSome = true then
             OrderedMap.Get om ("@" ++ (⟨rest⟩ : String))
           else none) := by
        unfold arbExpectedGet
        rw [if_pos (atPfx_append _)]
        rw [hdrop]
      rw [hqp, hexp]
      unfold arbReassemble
      rw [omGet_expand_keys_at (buildFrontMatter om) _ _ hkeysnonat]
      by_cases hp : strHasPfx (⟨rest⟩ : String) "@" = true
      · have halookup : alookup (buildFrontMatter om) (⟨rest⟩ : String) = none := by
          rw [buildFrontMatter_eq om hndf]
          exact alookup_bfm_at om _ hp om
        have hpnot : (⟨rest⟩ : String) ∉ getOrderedKeys (buildFrontMatter om) := by
          intro hmem
          have := (hkeysmem _).mp hmem
          rw [halookup] at this
          exact absurd this (by decide)
        rw [if_neg hpnot, if_pos hp]
      · have hpf : strHasPfx (⟨rest⟩ : String) "@" = false := by
          revert hp
          cases strHasPfx (⟨rest⟩ : String) "@" <;> simp
        have halookup : alookup (buildFrontMatter om) (⟨rest⟩ : String) =
            (OrderedMap.Get om (⟨rest⟩ : String)).map
              (fun v => (v, OrderedMap.Get om ("@" ++ (⟨rest⟩ : String)))) := by
          rw [buildFrontMatter_eq om hndf]
          exact alookup_bfm_nonat om _ hpf om
        rw [if_neg hp]
        by_cases hpm : (⟨rest⟩ : String) ∈ getOrderedKeys (buildFrontMatter om)
        · rw [if_pos hpm, halookup]
          cases hget : OrderedMap.Get om (⟨rest⟩ : String) with
          | none => simp
          | some v => simp
        · rw [if_neg hpm]
          have hnone : (alookup (buildFrontMatter om) (⟨rest⟩ : String)).isSome = false := by
            cases his : (alookup (buildFrontMatter om) (⟨rest⟩ : String)).isSome with
            | false => rfl
            | true => exact absurd ((hkeysmem _).mpr his) hpm
          rw [halookup] at hnone
          cases hget : OrderedMap.Get om (⟨rest⟩ : String) with
          | none => simp
          | some v =>
            rw [hget] at hnone
            simp at hnone
  · exact marshal_keys_sorted _

/-- Witness for c7_arb_round_trip at a two-entry ARB document with one
translation key and its metadata companion. -/
theorem c7_arb_round_trip_witness :
    OrderedMap.Get (ARBRoundTrip
      [⟨"title", JVal.str "Hello"⟩, ⟨"@title", JVal.obj []⟩]) "title" =
      arbExpectedGet [⟨"title", JVal.str "Hello"⟩, ⟨"@title", JVal.obj []⟩] "title" :=
  (c7_arb_round_trip [⟨"title", JVal.str "Hello"⟩, ⟨"@title", JVal.obj []⟩] (by decide)).1 "title"

/-- Claim C7 as stated is false at a concrete input: a source consisting of
the single standalone metadata key is emptied by the round trip, so the key
set is not reproduced. -/
theorem c7_counterexample_orphan_metadata_dropped :
    ARBRoundTrip [⟨"@x", JVal.str "m"⟩] = [] ∧
    (([⟨"@x", JVal.str "m"⟩] : OrderedMap).map KVPair.Key) ≠ [] :=
  ⟨rfl, by decide⟩

end Decapta
